import Mathlib

/-!  Verification development for the soloact data-augmentation pipeline
     (soloact/data/make_dataset.py).

     Modelling conventions (shallow embedding):
     * Python dictionaries are insertion-ordered association lists
       `List (String × _)` with overwrite-in-place assignment;
     * Python numbers are rationals;
     * numpy 2-D arrays are lists of rows (`List (List ℚ)`);
     * the global pseudo-random generator is an explicit stream
       `ℕ → ℚ` of draws in [0, 1) together with a cursor index,
       one draw consumed per `random.choice` / `random.uniform` /
       `random.randint` call;
     * fallible Python code returns `Except String _` / `Option _`;
     * the external sox / librosa collaborators (method signatures with
       their default parameter values, the audio round trip through a
       transient file, `librosa.feature.mfcc`) are an explicit
       environment record `Env` of opaque functions. -/

/-- A Python runtime value as it appears in the augmentation
    configuration and in realized parameter labels. -/
inductive PyVal where
  | none : PyVal
  | num (q : ℚ) : PyVal
  | str (s : String) : PyVal
  | bool (b : Bool) : PyVal
  | list (l : List ℚ) : PyVal
deriving DecidableEq, Repr

/-- `isinstance(v, list)`. -/
def PyVal.isList : PyVal → Bool
  | PyVal.list _ => true
  | _ => false

/-- Keys of an insertion-ordered dictionary. -/
def dictKeys {α : Type} (d : List (String × α)) : List String := d.map Prod.fst

/-- `d[k]` as an option; first binding wins (Python dict keys are unique). -/
def dictFind {α : Type} (d : List (String × α)) (k : String) : Option α :=
  (d.find? (fun p => p.1 = k)).map Prod.snd

/-- Python `d.get(k)`: `None` when the key is absent. -/
def pyGet (d : List (String × PyVal)) (k : String) : PyVal :=
  match dictFind d k with
  | some v => v
  | Option.none => PyVal.none

/-- Python `d[k] = v`: overwrite in place when the key exists, append otherwise. -/
def dictSet {α : Type} (d : List (String × α)) (k : String) (v : α) : List (String × α) :=
  if (d.map Prod.fst).contains k then
    d.map (fun p => if p.1 = k then (k, v) else p)
  else d ++ [(k, v)]

/-- Python `{**a, **b}`: fold the bindings of `b` into `a`. -/
def dictMerge {α : Type} (a b : List (String × α)) : List (String × α) :=
  b.foldl (fun acc p => dictSet acc p.1 p.2) a

/-- A nested Python dictionary whose leaves carry values of type `α`
    (the argument shape of `flatten` in make_dataset.py). -/
inductive NVal (α : Type) where
  | leaf (a : α) : NVal α
  | node (entries : List (String × NVal α)) : NVal α

mutual

/-- The item loop of `flatten` (make_dataset.py lines 42-48), with the
    accumulated `store` dictionary made explicit. -/
def flattenItems {α : Type} : List (String × NVal α) → String → String → List (String × α) → List (String × α)
  | [], _, _, store => store
  | (k, v) :: rest, par, sep, store => flattenItems rest par sep (flattenOne k v par sep store)

/-- One iteration of the `flatten` loop body: a dict value recurses with
    the extended parent key (`par + sep + k if par else k`), any other
    value is stored under `par + sep + k` (note: the separator is
    prepended even when `par` is empty, exactly as in the source). -/
def flattenOne {α : Type} (k : String) : NVal α → String → String → List (String × α) → List (String × α)
  | NVal.leaf a, par, sep, store => dictSet store (par ++ sep ++ k) a
  | NVal.node inner, par, sep, store =>
      dictMerge store (flattenItems inner (if par = "" then k else par ++ sep ++ k) sep [])

end

/-- `flatten` from make_dataset.py (default arguments `par = ''`, `sep = '.'`). -/
def flatten {α : Type} (x : List (String × NVal α)) (par : String := "") (sep : String := ".") :
    List (String × α) :=
  flattenItems x par sep []

/-- `random.uniform(x, y) = x + (y - x) * random()`, with `r` modelling the
    `random()` draw. -/
def pyUniform (x y r : ℚ) : ℚ := x + (y - x) * r

/-- `random.randint(x, y)`: for integral bounds with `x ≤ y` it draws an
    integer of the inclusive range; a reversed range raises
    `ValueError: empty range`, a non-integral bound raises
    `ValueError: non-integer arg`. -/
def pyRandint (x y : ℚ) (r : ℚ) : Except String ℚ :=
  if x.den = 1 ∧ y.den = 1 then
    if x ≤ y then Except.ok (x + ((⌊r * (y - x + 1)⌋ : ℤ) : ℚ))
    else Except.error "ValueError: empty range for randrange"
  else Except.error "ValueError: non-integer arg to randrange"

/-- `rand` from make_dataset.py lines 63-81: `uniform` when both bounds are
    below 1, `randint` otherwise. -/
def rand (x y : ℚ) (r : ℚ) : Except String ℚ :=
  if x < 1 ∧ y < 1 then Except.ok (pyUniform x y r)
  else pyRandint x y r

/-- Number of STFT frames librosa produces for a waveform of `n` samples
    (default `hop_length = 512`, centered): `1 + n / 512`.  External
    collaborator, modelled from librosa's documented behaviour. -/
def numFrames (n : ℕ) : ℕ := 1 + n / 512

/-- `np.mean(m, axis = 0)` for a 2-D array given as a list of rows: the
    vector of column means, whose length is the number of columns. -/
def npMeanAxis0 (m : List (List ℚ)) : List ℚ :=
  (List.range ((m.headD []).length)).map
    (fun j => ((m.map (fun row => row.getD j 0)).sum) / (m.length : ℚ))

/-- `feature_pipeline` from make_dataset.py lines 113-131, parameterized by
    the external `librosa.feature.mfcc` call (invoked with `n_mfcc = 26`):
    it reduces the mfcc matrix with `np.mean(mfcc, axis = 0)`. -/
def feature_pipeline (mfccFn : List ℚ → List (List ℚ)) (arr : List ℚ) : List ℚ :=
  npMeanAxis0 (mfccFn arr)

/-- Shape contract of `librosa.feature.mfcc(arr, sr = 44100, n_mfcc = 26)`:
    26 rows (one per coefficient), one column per time frame. -/
def MfccShaped (mfccFn : List ℚ → List (List ℚ)) : Prop :=
  ∀ a : List ℚ, (mfccFn a).length = 26 ∧ ∀ row ∈ mfccFn a, row.length = numFrames a.length

/-- `x.shape` of a 2-D numpy array given as a list of rows. -/
def shape2 (a : List (List ℚ)) : ℕ × ℕ := (a.length, (a.headD []).length)

/-- `max(shapes, key = lambda x: x[0])`: Python's `max` keeps the first
    element whose key is maximal. -/
def pyMaxByFst : List (ℕ × ℕ) → ℕ × ℕ
  | [] => (0, 0)
  | x :: xs => xs.foldl (fun acc sh => if sh.1 > acc.1 then sh else acc) x

/-- The zero grid of shape `M` with `inp` written into its top-left corner
    (the successful case of `zero_grid[:x, :y] = inp`). -/
def padGrid (inp : List (List ℚ)) (M : ℕ × ℕ) : List (List ℚ) :=
  (inp.map (fun row => row ++ List.replicate (M.2 - (shape2 inp).2) 0)) ++
    List.replicate (M.1 - (shape2 inp).1) (List.replicate M.2 0)

/-- The inner `padder` of `pad` (make_dataset.py lines 150-154): allocate a
    zero grid of the maximal shape and assign `zero_grid[:x, :y] = inp`.
    The assignment broadcasts only when the input fits inside the grid;
    otherwise numpy raises, modelled as `Option.none`. -/
def padder (inp : List (List ℚ)) (M : ℕ × ℕ) : Option (List (List ℚ)) :=
  if (shape2 inp).1 ≤ M.1 ∧ (shape2 inp).2 ≤ M.2 then some (padGrid inp M)
  else Option.none

/-- `pad` from make_dataset.py lines 134-162: maximal shape selected only
    by the first dimension, every array padded onto a zero grid of that
    shape, results stacked.  `max` of an empty list raises. -/
def pad (l : List (List (List ℚ))) : Option (List (List (List ℚ))) :=
  match l with
  | [] => Option.none
  | _ :: _ => l.mapM (fun a => padder a (pyMaxByFst (l.map shape2)))

/-- Rectangularity of a list-of-rows 2-D array (every numpy array is). -/
def Rect (a : List (List ℚ)) : Prop := ∀ row ∈ a, row.length = (a.headD []).length

/-- Entry `a[j][k]` of a list-of-rows array, 0 outside. -/
def entry2 (a : List (List ℚ)) (j k : ℕ) : ℚ := (a.getD j []).getD k 0

/-- A configured effect parameter: the policy record the YAML config stores
    under `effects.<effect>.<param>`.  Absent keys read back as `None`
    through `val.get(...)`, so each field is a `PyVal` defaulting to
    `PyVal.none`. -/
structure ParamCfg where
  state : PyVal := PyVal.none
  default : PyVal := PyVal.none
  lower : PyVal := PyVal.none
  upper : PyVal := PyVal.none
deriving DecidableEq, Repr

/-- The parameter dictionary of one effect. -/
abbrev Spec := List (String × ParamCfg)

/-- The ordered effect chain handed to `augment_track`: effect name paired
    with its specification, `Option.none` standing for Python `None`
    (an `OrderedDict.fromkeys` slot never filled in). -/
abbrev Chain := List (String × Option Spec)

/-- The external sox / librosa collaborators of `augment_track`:
    `sig e` models `getattr(FX, e)` followed by `signature(...).parameters`
    (absent method: `AttributeError`); `wave file labels` models building
    the transformer output to a transient file and reloading it with
    librosa, as a function of the source file and the realized effect
    parameters; `mfcc` models `librosa.feature.mfcc` with `n_mfcc = 26`. -/
structure Env where
  sig : String → Option (List (String × PyVal))
  wave : String → List (String × List (String × PyVal)) → List ℚ
  mfcc : List ℚ → List (List ℚ)

/-- Python `str.lower()` (kernel-computable model over the character list;
    the configuration strings involved are ASCII). -/
def pyLower (s : String) : String := String.mk (s.data.map Char.toLower)

/-- Text of the bounds assertion in make_dataset.py line 223-224. -/
def assertMsg (eff p : String) : String :=
  "AssertionError: Upper bound for " ++ eff ++ "." ++ p ++
    " must be greater than its lower bound"

/-- The parameter loop of `augment_track` (make_dataset.py lines 212-227):
    `state == 'constant'` stores the library default (when `default is
    True`) or the configured upper value; `state == 'random'` rejects
    list-valued library defaults, asserts `upper > lower` (a comparison
    between non-numbers raises `TypeError`), and draws with `rand`;
    any other state leaves the parameter untouched. -/
def processParams (fdef : List (String × PyVal)) (eff : String) (s : ℕ → ℚ) :
    List (String × ParamCfg) → ℕ → List (String × PyVal) →
    Except String (List (String × PyVal) × ℕ)
  | [], i, used => Except.ok (used, i)
  | (p, cfg) :: rest, i, used =>
    if cfg.state = PyVal.str "constant" then
      processParams fdef eff s rest i
        (dictSet used p (if cfg.default = PyVal.bool true then pyGet fdef p else cfg.upper))
    else if cfg.state = PyVal.str "random" then
      if (pyGet fdef p).isList then
        Except.error "TypeError: Will not parse random list values!"
      else
        match cfg.lower, cfg.upper with
        | PyVal.num l, PyVal.num u =>
          if u > l then
            match rand l u (s i) with
            | Except.ok v => processParams fdef eff s rest (i + 1) (dictSet used p (PyVal.num v))
            | Except.error e => Except.error e
          else Except.error (assertMsg eff p)
        | _, _ => Except.error "TypeError: unorderable comparison"
    else processParams fdef eff s rest i used

/-- Processing of one non-skipped effect (make_dataset.py lines 204-228):
    `getattr` on the transformer, default-parameter introspection, then
    the parameter loop over `parameters.items()` — which raises when the
    specification is `None` (an `OrderedDict.fromkeys` slot). -/
def processEffect (env : Env) (eff : String) (spec : Option Spec) (s : ℕ → ℚ) (i : ℕ) :
    Except String (List (String × PyVal) × ℕ) :=
  match env.sig eff with
  | Option.none => Except.error ("AttributeError: Transformer object has no attribute " ++ eff)
  | some fdef =>
    match spec with
    | Option.none => Except.error "AttributeError: NoneType object has no attribute items"
    | some ps => processParams fdef eff s ps i []

/-- The effect loop of `augment_track` (make_dataset.py lines 195-229).
    Under the classification policy a non-sustained effect consumes one
    coin draw `random.choice([True, False])` — modelled as True exactly
    when the draw is below 1/2 — and is skipped when the coin shows
    False (`int(False) == 0`).  A processed effect records its realized
    parameters under its name in `labels`. -/
def augmentTrackGo (env : Env) (exercise : String) (sustain : List String) (s : ℕ → ℚ) :
    Chain → ℕ → List (String × List (String × PyVal)) →
    Except String (List (String × List (String × PyVal)) × ℕ)
  | [], i, labels => Except.ok (labels, i)
  | (eff, spec) :: rest, i, labels =>
    if pyLower exercise = "classification" ∧ eff ∉ sustain then
      if s i < 1/2 then
        match processEffect env eff spec s (i + 1) with
        | Except.ok (used, i2) =>
            augmentTrackGo env exercise sustain s rest i2 (dictSet labels eff used)
        | Except.error e => Except.error e
      else augmentTrackGo env exercise sustain s rest (i + 1) labels
    else
      match processEffect env eff spec s i with
      | Except.ok (used, i2) =>
          augmentTrackGo env exercise sustain s rest i2 (dictSet labels eff used)
      | Except.error e => Except.error e

/-- `augment_track` from make_dataset.py lines 165-246 (feature-extraction
    path): run the effect loop, flatten the nested labels with the default
    separator, attach `group = n`, and compute the feature vector of the
    reloaded waveform.  Returns the flattened labels, the feature vector
    and the advanced draw cursor. -/
def augment_track (env : Env) (file : String) (n : ℕ) (effects : Chain)
    (exercise : String) (sustain : List String) (s : ℕ → ℚ) (i : ℕ) :
    Except String (List (String × PyVal) × List ℚ × ℕ) :=
  match augmentTrackGo env exercise sustain s effects i [] with
  | Except.error e => Except.error e
  | Except.ok (labels, i2) =>
    let flat := flatten (labels.map (fun kv =>
      (kv.1, NVal.node (kv.2.map (fun pv => (pv.1, NVal.leaf pv.2))))))
    let flat2 := dictSet flat "group" (PyVal.num n)
    Except.ok (flat2, feature_pipeline env.mfcc (env.wave file labels), i2)

/-- `['overdrive'] + [f for f in effects.keys() if f not in ['reverb',
    'overdrive']] + ['reverb']` (make_dataset.py line 311). -/
def buildOrder (effects : List (String × Spec)) : List String :=
  "overdrive" ::
    ((effects.map Prod.fst).filter (fun f => !(f == "reverb" || f == "overdrive")) ++ ["reverb"])

/-- `OrderedDict.fromkeys` with the set of already-inserted keys made
    explicit: keep the first occurrence of every key. -/
def dedupSeen : List String → List String → List String
  | [], _ => []
  | k :: rest, seen =>
    if seen.contains k then dedupSeen rest seen
    else k :: dedupSeen rest (k :: seen)

/-- `OrderedDict.fromkeys`: keep the first occurrence of every key. -/
def dedupKeepFirst (l : List String) : List String := dedupSeen l []

/-- Lines 310-319 of make_dataset.py: the fixed-order chain.
    `OrderedDict.fromkeys(order)` fills every slot with `None`; the loop
    `for k, v in effects.items(): ordered_effects[k] = v` then reassigns
    the keys present in the active set, so each slot holds the looked-up
    specification, or `None` when the active set lacks that name. -/
def buildChain (effects : List (String × Spec)) : Chain :=
  (dedupKeepFirst (buildOrder effects)).map (fun k => (k, dictFind effects k))

/-- `np.expand_dims(x, axis = 1)`: a length-n vector becomes an (n, 1)
    array. -/
def expandDims (f : List ℚ) : List (List ℚ) := f.map (fun v => [v])

/-- Python `str.rstrip(chars)`: drop trailing characters belonging to the
    character set (note: a set of characters, not a suffix). -/
def pyRstrip (s : String) (chars : List Char) : String :=
  String.mk ((s.data.reverse.dropWhile (fun c => chars.contains c)).reverse)

/-- Splitting a character list at every occurrence of `sep`, preserving
    empty segments (the semantics of Python `str.split` with a one-char
    separator, kernel-computable). -/
def splitCharAux (sep : Char) : List Char → List (List Char)
  | [] => [[]]
  | c :: rest =>
    match splitCharAux sep rest with
    | [] => [[]]
    | h :: t => if c = sep then [] :: h :: t else (c :: h) :: t

/-- `x.split('/')`. -/
def splitSegs (f : String) : List String := (splitCharAux '/' f.data).map String.mk

/-- Python negative indexing `l[-k]`; out of range raises `IndexError`. -/
def pyNegIdx (l : List String) (k : ℕ) : Option String :=
  if 1 ≤ k ∧ k ≤ l.length then some (l.getD (l.length - k) "") else Option.none

/-- `gt(x, ix = -2 if source != 'sn' else -3)` (make_dataset.py line 353):
    the model/instrument path segment. -/
def modelOf (f : String) (source : String) : Option String :=
  pyNegIdx (splitSegs f) (if source = "sn" then 3 else 2)

/-- `gt(x, ix = -1).rstrip('.wav')`: the chord segment.  `split` always
    returns at least one segment, so the last index never raises. -/
def chordOf (f : String) : String :=
  pyRstrip ((splitSegs f).getD ((splitSegs f).length - 1) "") ['.', 'w', 'a', 'v']

/-- `file_meta` of make_dataset.py line 353: (model, chord) per source
    file, raising `IndexError` when a path is too shallow for the
    negative index. -/
def fileMeta (files : List String) (source : String) : Except String (List (String × String)) :=
  files.mapM (fun f =>
    match modelOf f source with
    | some m => Except.ok (m, chordOf f)
    | Option.none => Except.error "IndexError: list index out of range")

/-- The inner repetition loop `for i in range(n_augment)` of
    make_dataset.py lines 342-343, threading the draw cursor. -/
def augReps (env : Env) (exercise : String) (sustain : List String) (chain : Chain)
    (file : String) (s : ℕ → ℚ) :
    ℕ → ℕ → ℕ → Except String (List (List (String × PyVal) × List ℚ) × ℕ)
  | 0, _, i => Except.ok ([], i)
  | k + 1, rep, i =>
    match augment_track env file rep chain exercise sustain s i with
    | Except.error e => Except.error e
    | Except.ok (lab, feat, i2) =>
      match augReps env exercise sustain chain file s k (rep + 1) i2 with
      | Except.error e => Except.error e
      | Except.ok (rest, i3) => Except.ok ((lab, feat) :: rest, i3)

/-- The outer file loop of make_dataset.py lines 341-343. -/
def augFiles (env : Env) (exercise : String) (sustain : List String) (chain : Chain)
    (nAug : ℕ) (s : ℕ → ℚ) :
    List String → ℕ → Except String (List (List (String × PyVal) × List ℚ) × ℕ)
  | [], i => Except.ok ([], i)
  | f :: fs, i =>
    match augReps env exercise sustain chain f s nAug 0 i with
    | Except.error e => Except.error e
    | Except.ok (r1, i2) =>
      match augFiles env exercise sustain chain nAug s fs i2 with
      | Except.error e => Except.error e
      | Except.ok (r2, i3) => Except.ok (r1 ++ r2, i3)

/-- The assembly core of `augment_data` (make_dataset.py lines 310-359, the
    non-writing path): build the fixed-order chain, run the augmentation
    loop, `zip(*store_all)` (raising on an empty store), expand and pad
    the features, build the label table and append the `model` / `chords`
    columns parsed from the file paths, each value repeated `n_augment`
    times.  File globbing, YAML loading and persistence are external I/O
    and sit outside this core. -/
def augment_data (env : Env) (s : ℕ → ℚ) (files : List String) (nAug : ℕ)
    (effects : List (String × Spec)) (exercise : String) (sustain : List String)
    (source : String) :
    Except String (List (List (List ℚ)) × List (List (String × PyVal))) :=
  let chain := buildChain effects
  match augFiles env exercise sustain chain nAug s files 0 with
  | Except.error e => Except.error e
  | Except.ok (rows, _) =>
    if rows.isEmpty then Except.error "ValueError: not enough values to unpack"
    else
      match pad ((rows.map (fun r => r.2)).map expandDims) with
      | Option.none => Except.error "ValueError: could not broadcast input array"
      | some X =>
        match fileMeta files source with
        | Except.error e => Except.error e
        | Except.ok meta =>
          let models := (meta.map (fun m => List.replicate nAug m.1)).flatten
          let chords := (meta.map (fun m => List.replicate nAug m.2)).flatten
          let Y0 := rows.map (fun r => r.1)
          let Y1 := Y0.zipWith (fun row m => dictSet row "model" (PyVal.str m)) models
          let Y2 := Y1.zipWith (fun row c => dictSet row "chords" (PyVal.str c)) chords
          Except.ok (X, Y2)

/-- A Python whitespace character (the set `int()` strips). -/
def isPyWs (c : Char) : Bool := c == ' ' || c == '\t' || c == '\n' || c == '\r'

/-- Value of a nonempty all-digit character list. -/
def digitsVal : List Char → Option ℕ
  | [] => Option.none
  | ds =>
    if ds.all (fun c => c.isDigit) then
      some (ds.foldl (fun a c => a * 10 + (c.toNat - Char.toNat '0')) 0)
    else Option.none

/-- The Python builtin `int(str)`: strip surrounding whitespace, accept an
    optional sign followed by digits, raise `ValueError` otherwise
    (external builtin, modelled from its documented behaviour). -/
def pyIntParse (s : String) : Option ℤ :=
  let t := ((s.data.dropWhile isPyWs).reverse.dropWhile isPyWs).reverse
  match t with
  | '+' :: ds => (digitsVal ds).map (fun n => (n : ℤ))
  | '-' :: ds => (digitsVal ds).map (fun n => -(n : ℤ))
  | ds => (digitsVal ds).map (fun n => (n : ℤ))

/-- Outcome of the destructive-write confirmation block. -/
inductive PromptOutcome where
  | proceed : PromptOutcome
  | exited (msg : String) : PromptOutcome
  | raised (msg : String) : PromptOutcome
deriving DecidableEq, Repr

/-- Lines 330-337 of make_dataset.py: `if int(input()) == 1: ... else:
    sys.exit('Operation cancelled')`.  A non-integer input makes `int()`
    itself raise before the comparison happens. -/
def confirmPrompt (inp : String) : PromptOutcome :=
  match pyIntParse inp with
  | some z => if z = 1 then PromptOutcome.proceed else PromptOutcome.exited "Operation cancelled"
  | Option.none => PromptOutcome.raised "ValueError: invalid literal for int() with base 10"

/-- A parameter record the resolution loop is guaranteed to get through:
    a `random` state must carry numeric bounds with `lower < upper` whose
    magnitudes route `rand` into a succeeding branch, and the library
    default must not be a list. -/
def ParamOk (fdef : List (String × PyVal)) (p : String) (cfg : ParamCfg) : Prop :=
  cfg.state = PyVal.str "random" →
    ((pyGet fdef p).isList = false ∧
     ∃ l u : ℚ, cfg.lower = PyVal.num l ∧ cfg.upper = PyVal.num u ∧ l < u ∧
       ((l < 1 ∧ u < 1) ∨ (l.den = 1 ∧ u.den = 1)))

/-- Every parameter of a specification is resolvable. -/
def SpecOk (fdef : List (String × PyVal)) (ps : Spec) : Prop :=
  ∀ pc ∈ ps, ParamOk fdef pc.1 pc.2

/-- A chain entry `augment_track` can always process: the transformer has
    the method and the specification is present and resolvable. -/
def EffectOk (env : Env) (x : String × Option Spec) : Prop :=
  ∃ fdef ps, env.sig x.1 = some fdef ∧ x.2 = some ps ∧ SpecOk fdef ps

/-- Every entry of the chain is processable. -/
def WellFormedChain (env : Env) (c : Chain) : Prop := ∀ x ∈ c, EffectOk env x

/-- Every chain slot carries an actual specification (no `None` left from
    `OrderedDict.fromkeys`). -/
def chainSpecsPresent (c : Chain) : Prop := ∀ x ∈ c, x.2 ≠ Option.none

/-- A constant-state parameter record taking the library default, used in
    concrete instantiations. -/
def cfgConstDefault : ParamCfg :=
  { state := PyVal.str "constant", default := PyVal.bool true,
    lower := PyVal.none, upper := PyVal.none }

/-- A concrete stand-in for `librosa.feature.mfcc` with the documented
    output shape, used to instantiate shape-level statements. -/
def mfccWitness (a : List ℚ) : List (List ℚ) :=
  List.replicate 26 (List.replicate (numFrames a.length) 0)

/-- A concrete external environment for instantiating statements about
    `augment_track` / `augment_data`: a transformer exposing `overdrive`
    (parameter `gain_db`, default 20) and `reverb` (parameter
    `reverberance`, default 50), with opaque audio replaced by a fixed
    short waveform. -/
def envW : Env where
  sig := fun e =>
    if e = "overdrive" then some [("gain_db", PyVal.num 20), ("colour", PyVal.num 20)]
    else if e = "reverb" then some [("reverberance", PyVal.num 50)]
    else Option.none
  wave := fun _ _ => [1, 0, 1]
  mfcc := mfccWitness

/-! ### Dictionary lemmas -/

theorem contains_eq_false_of_not_mem {l : List String} {k : String} (h : k ∉ l) :
    l.contains k = false := by
  induction l with
  | nil => rfl
  | cons a t ih =>
    have h1 : k ≠ a := fun he => h (he ▸ List.mem_cons_self a t)
    have h2 : k ∉ t := fun ht => h (List.mem_cons_of_mem a ht)
    simp [List.contains, List.elem_cons, ih h2, beq_iff_eq, h1]
    exact h2

theorem contains_eq_true_of_mem {l : List String} {k : String} (h : k ∈ l) :
    l.contains k = true := by
  induction l with
  | nil => cases h
  | cons a t ih =>
    rcases List.mem_cons.mp h with rfl | ht
    · simp [List.contains, List.elem_cons]
    · simp [List.contains, List.elem_cons, ih ht]
      exact Or.inr ht

theorem dictFind_cons {α : Type} (a : String × α) (t : List (String × α)) (k : String) :
    dictFind (a :: t) k = if a.1 = k then some a.2 else dictFind t k := by
  by_cases h : a.1 = k
  · simp [dictFind, List.find?_cons, h]
  · simp [dictFind, List.find?_cons, h]

theorem dictFind_eq_none {α : Type} {d : List (String × α)} {k : String}
    (h : k ∉ d.map Prod.fst) : dictFind d k = Option.none := by
  induction d with
  | nil => rfl
  | cons a t ih =>
    have h1 : a.1 ≠ k := fun he => h (he ▸ List.mem_map_of_mem Prod.fst (List.mem_cons_self a t))
    have h2 : k ∉ t.map Prod.fst := fun ht => by
      rcases List.mem_map.mp ht with ⟨p, hp, hpk⟩
      exact h (List.mem_map.mpr ⟨p, List.mem_cons_of_mem a hp, hpk⟩)
    rw [dictFind_cons, if_neg h1, ih h2]

theorem dictFind_isSome {α : Type} {d : List (String × α)} {k : String}
    (h : k ∈ d.map Prod.fst) : ∃ v, dictFind d k = some v := by
  induction d with
  | nil => cases h
  | cons a t ih =>
    by_cases h1 : a.1 = k
    · exact ⟨a.2, by rw [dictFind_cons, if_pos h1]⟩
    · rcases List.mem_map.mp h with ⟨p, hp, hpk⟩
      rcases List.mem_cons.mp hp with rfl | hpt
      · exact absurd hpk h1
      · rcases ih (List.mem_map.mpr ⟨p, hpt, hpk⟩) with ⟨v, hv⟩
        exact ⟨v, by rw [dictFind_cons, if_neg h1, hv]⟩

theorem dictSet_of_not_mem {α : Type} {d : List (String × α)} {k : String} (v : α)
    (h : k ∉ d.map Prod.fst) : dictSet d k v = d ++ [(k, v)] := by
  unfold dictSet
  rw [contains_eq_false_of_not_mem h]
  simp

theorem find_map_replace_self {α : Type} {d : List (String × α)} {k : String} (v : α)
    (h : k ∈ d.map Prod.fst) :
    dictFind (d.map (fun p => if p.1 = k then (k, v) else p)) k = some v := by
  induction d with
  | nil => cases h
  | cons a t ih =>
    by_cases h1 : a.1 = k
    · simp only [List.map_cons, if_pos h1]
      rw [dictFind_cons, if_pos rfl]
    · simp only [List.map_cons, if_neg h1]
      rw [dictFind_cons, if_neg h1]
      rcases List.mem_map.mp h with ⟨p, hp, hpk⟩
      rcases List.mem_cons.mp hp with rfl | hpt
      · exact absurd hpk h1
      · exact ih (List.mem_map.mpr ⟨p, hpt, hpk⟩)

theorem find_map_replace_ne {α : Type} {d : List (String × α)} {k k' : String} (v : α)
    (h : k' ≠ k) :
    dictFind (d.map (fun p => if p.1 = k then (k, v) else p)) k' = dictFind d k' := by
  induction d with
  | nil => rfl
  | cons a t ih =>
    by_cases h1 : a.1 = k
    · simp only [List.map_cons, if_pos h1]
      rw [dictFind_cons, dictFind_cons, if_neg (fun he : k = k' => h he.symm),
        if_neg (fun he : a.1 = k' => h (by rw [← he]; exact h1))]
      exact ih
    · simp only [List.map_cons, if_neg h1]
      rw [dictFind_cons, dictFind_cons]
      by_cases h2 : a.1 = k'
      · rw [if_pos h2, if_pos h2]
      · rw [if_neg h2, if_neg h2]; exact ih

theorem find_append_single {α : Type} {d : List (String × α)} {k : String} (v : α)
    (h : k ∉ d.map Prod.fst) : dictFind (d ++ [(k, v)]) k = some v := by
  induction d with
  | nil => simp [dictFind, List.find?]
  | cons a t ih =>
    have h1 : a.1 ≠ k := fun he => h (he ▸ List.mem_map_of_mem Prod.fst (List.mem_cons_self a t))
    have h2 : k ∉ t.map Prod.fst := fun ht => by
      rcases List.mem_map.mp ht with ⟨p, hp, hpk⟩
      exact h (List.mem_map.mpr ⟨p, List.mem_cons_of_mem a hp, hpk⟩)
    rw [List.cons_append, dictFind_cons, if_neg h1]
    exact ih h2

theorem find_append_single_ne {α : Type} {d : List (String × α)} {k k' : String} (v : α)
    (h : k' ≠ k) : dictFind (d ++ [(k, v)]) k' = dictFind d k' := by
  induction d with
  | nil => simp [dictFind, List.find?, Ne.symm h]
  | cons a t ih =>
    rw [List.cons_append, dictFind_cons, dictFind_cons]
    by_cases h2 : a.1 = k'
    · rw [if_pos h2, if_pos h2]
    · rw [if_neg h2, if_neg h2]; exact ih

theorem dictFind_dictSet_self {α : Type} (d : List (String × α)) (k : String) (v : α) :
    dictFind (dictSet d k v) k = some v := by
  by_cases h : k ∈ d.map Prod.fst
  · unfold dictSet
    rw [contains_eq_true_of_mem h]
    simpa using find_map_replace_self v h
  · rw [dictSet_of_not_mem v h]
    exact find_append_single v h

theorem dictFind_dictSet_ne {α : Type} (d : List (String × α)) (k k' : String) (v : α)
    (h : k' ≠ k) : dictFind (dictSet d k v) k' = dictFind d k' := by
  by_cases hm : k ∈ d.map Prod.fst
  · unfold dictSet
    rw [contains_eq_true_of_mem hm]
    simpa using find_map_replace_ne v h
  · rw [dictSet_of_not_mem v hm]
    exact find_append_single_ne v h

/-! ### Claim C3 — the Randomization Utility -/

/-- Claim C3, counterexample: with bounds x = 5, y = 3 (both ≥ 1, so the
    integer branch is taken), `rand` does not return an integer of the
    inclusive range — `random.randint(5, 3)` raises `ValueError` because
    the range is empty.  The claim as stated is therefore false for this
    bounds pair. -/
theorem rand_claim_counterexample :
    rand 5 3 (1/2) = Except.error "ValueError: empty range for randrange" := rfl

/-- Claim C3 (amended): if both bounds are below 1, `rand` returns
    `uniform(x, y)`, which lies in the closed interval between the bounds
    in either order; otherwise it behaves as `randint`, which returns an
    integer of the inclusive range provided the bounds are integral with
    x ≤ y (and raises otherwise). -/
theorem rand_amended :
    (∀ x y r : ℚ, x < 1 → y < 1 → 0 ≤ r → r ≤ 1 →
      rand x y r = Except.ok (pyUniform x y r) ∧
      min x y ≤ pyUniform x y r ∧ pyUniform x y r ≤ max x y) ∧
    (∀ x y r : ℚ, ¬ (x < 1 ∧ y < 1) → x.den = 1 → y.den = 1 → x ≤ y → 0 ≤ r → r < 1 →
      ∃ v : ℚ, rand x y r = Except.ok v ∧ v.den = 1 ∧ x ≤ v ∧ v ≤ y) := by
  constructor
  · intro x y r hx hy hr0 hr1
    refine ⟨by simp [rand, hx, hy], ?_, ?_⟩
    · rcases le_total x y with h | h
      · have hv : x ≤ pyUniform x y r := by
          unfold pyUniform
          nlinarith [mul_nonneg (sub_nonneg.mpr h) hr0]
        exact le_trans (min_le_left x y) hv
      · have hv : y ≤ pyUniform x y r := by
          unfold pyUniform
          nlinarith [mul_nonneg (sub_nonneg.mpr h) (sub_nonneg.mpr hr1)]
        exact le_trans (min_le_right x y) hv
    · rcases le_total x y with h | h
      · have hv : pyUniform x y r ≤ y := by
          unfold pyUniform
          nlinarith [mul_nonneg (sub_nonneg.mpr h) (sub_nonneg.mpr hr1)]
        exact le_trans hv (le_max_right x y)
      · have hv : pyUniform x y r ≤ x := by
          unfold pyUniform
          nlinarith [mul_nonneg (sub_nonneg.mpr h) hr0]
        exact le_trans hv (le_max_left x y)
  · intro x y r hn hxd hyd hxy hr0 hr1
    have hx' : (x.num : ℚ) = x := Rat.coe_int_num_of_den_eq_one hxd
    have hy' : (y.num : ℚ) = y := Rat.coe_int_num_of_den_eq_one hyd
    have hpos : (0:ℚ) < y - x + 1 := by linarith
    have hfl0 : 0 ≤ ⌊r * (y - x + 1)⌋ := Int.floor_nonneg.mpr (mul_nonneg hr0 (le_of_lt hpos))
    have hlt : r * (y - x + 1) < y - x + 1 := by nlinarith
    have hfl1 : ⌊r * (y - x + 1)⌋ ≤ y.num - x.num := by
      have h1 : (⌊r * (y - x + 1)⌋ : ℚ) < y - x + 1 := lt_of_le_of_lt (Int.floor_le _) hlt
      have h2 : (⌊r * (y - x + 1)⌋ : ℚ) < ((y.num - x.num + 1 : ℤ) : ℚ) := by
        push_cast
        rw [hx', hy']
        linarith
      have h3 : ⌊r * (y - x + 1)⌋ < y.num - x.num + 1 := by exact_mod_cast h2
      omega
    refine ⟨x + ((⌊r * (y - x + 1)⌋ : ℤ) : ℚ), ?_, ?_, ?_, ?_⟩
    · simp [rand, hn, pyRandint, hxd, hyd, hxy]
    · have : x + ((⌊r * (y - x + 1)⌋ : ℤ) : ℚ) = ((x.num + ⌊r * (y - x + 1)⌋ : ℤ) : ℚ) := by
        push_cast
        rw [hx']
      rw [this]
      exact Rat.den_intCast _
    · have : (0:ℚ) ≤ ((⌊r * (y - x + 1)⌋ : ℤ) : ℚ) := by exact_mod_cast hfl0
      linarith
    · have h4 : ((⌊r * (y - x + 1)⌋ : ℤ) : ℚ) ≤ ((y.num - x.num : ℤ) : ℚ) := by
        exact_mod_cast hfl1
      have h5 : ((y.num - x.num : ℤ) : ℚ) = y - x := by
        push_cast
        rw [hx', hy']
      linarith [h4.trans_eq h5]

/-- Witness for `rand_amended` at concrete inputs: the continuous branch
    at (1/2, 1/4) and the integer branch at (2, 5). -/
theorem rand_amended_witness :
    (rand (1/2) (1/4) (1/3) = Except.ok (pyUniform (1/2) (1/4) (1/3)) ∧
      min (1/2 : ℚ) (1/4) ≤ pyUniform (1/2) (1/4) (1/3) ∧
      pyUniform (1/2) (1/4) (1/3) ≤ max (1/2 : ℚ) (1/4)) ∧
    (∃ v : ℚ, rand 2 5 (1/2) = Except.ok v ∧ v.den = 1 ∧ 2 ≤ v ∧ v ≤ 5) := by
  constructor
  · exact rand_amended.1 (1/2) (1/4) (1/3) (by norm_num) (by norm_num) (by norm_num) (by norm_num)
  · exact rand_amended.2 2 5 (1/2) (by norm_num) rfl rfl (by norm_num) (by norm_num) (by norm_num)

/-! ### Claim C8 — the destructive-write confirmation prompt -/

/-- Claim C8, counterexample: the input "x" does not produce a clean
    termination — `int("x")` raises `ValueError` before the comparison —
    and the input "01", although different from the literal "1",
    proceeds (it parses to the integer 1).  Both refute the claim that
    the literal "1" alone proceeds and every other input terminates
    cleanly. -/
theorem confirmPrompt_claim_counterexample :
    confirmPrompt "x" = PromptOutcome.raised "ValueError: invalid literal for int() with base 10" ∧
    confirmPrompt "01" = PromptOutcome.proceed ∧ "01" ≠ "1" := by
  exact ⟨rfl, rfl, by decide⟩

/-- Claim C8 (amended): the prompt proceeds exactly on inputs whose
    `int()` parse equals 1 (such as "1", " 1", "01"); inputs parsing to a
    different integer exit cleanly through `sys.exit('Operation
    cancelled')` before any directory is created or file written; inputs
    that do not parse as an integer crash with an uncaught `ValueError`
    rather than terminating cleanly. -/
theorem confirmPrompt_amended (inp : String) :
    (pyIntParse inp = some 1 → confirmPrompt inp = PromptOutcome.proceed) ∧
    (∀ z : ℤ, pyIntParse inp = some z → z ≠ 1 →
      confirmPrompt inp = PromptOutcome.exited "Operation cancelled") ∧
    (pyIntParse inp = Option.none →
      confirmPrompt inp = PromptOutcome.raised "ValueError: invalid literal for int() with base 10") := by
  refine ⟨fun h => ?_, fun z hz hz1 => ?_, fun h => ?_⟩
  · simp [confirmPrompt, h]
  · simp [confirmPrompt, hz, hz1]
  · simp [confirmPrompt, h]

/-- Witness for `confirmPrompt_amended`: " 1 " proceeds, "2" exits
    cleanly. -/
theorem confirmPrompt_amended_witness :
    confirmPrompt " 1 " = PromptOutcome.proceed ∧
    confirmPrompt "2" = PromptOutcome.exited "Operation cancelled" := by
  exact ⟨(confirmPrompt_amended " 1 ").1 rfl, (confirmPrompt_amended "2").2.1 2 rfl (by decide)⟩

/-! ### Claim C6 — flatten -/

theorem flattenItems_leaves (x : List (String × ℚ)) :
    ∀ store : List (String × ℚ),
      (∀ p ∈ x, ("." ++ p.1) ∉ store.map Prod.fst) →
      (x.map (fun p => "." ++ p.1)).Nodup →
      flattenItems (x.map (fun p => (p.1, NVal.leaf p.2))) "" "." store =
        store ++ x.map (fun p => ("." ++ p.1, p.2)) := by
  induction x with
  | nil => intro store _ _; simp [flattenItems]
  | cons p t ih =>
    intro store habs hnd
    have hkey : ∀ s : String, ("" : String) ++ "." ++ s = "." ++ s := fun s => rfl
    have hset : flattenOne p.1 (NVal.leaf p.2) "" "." store =
        store ++ [("." ++ p.1, p.2)] := by
      show dictSet store ("" ++ "." ++ p.1) p.2 = store ++ [("." ++ p.1, p.2)]
      rw [hkey]
      exact dictSet_of_not_mem p.2 (habs p (List.mem_cons_self p t))
    have hnd' : (t.map (fun q => "." ++ q.1)).Nodup := (List.nodup_cons.mp hnd).2
    have hhead : ("." ++ p.1) ∉ t.map (fun q => "." ++ q.1) := (List.nodup_cons.mp hnd).1
    have habs' : ∀ q ∈ t, ("." ++ q.1) ∉ (store ++ [("." ++ p.1, p.2)]).map Prod.fst := by
      intro q hq
      simp only [List.map_append, List.mem_append, List.map_cons, List.map_nil,
        List.mem_singleton]
      rintro (hin | heq)
      · exact habs q (List.mem_cons_of_mem p hq) hin
      · exact hhead (heq ▸ List.mem_map_of_mem (fun q => "." ++ q.1) hq)
    calc flattenItems ((p :: t).map (fun q => (q.1, NVal.leaf q.2))) "" "." store
        = flattenItems (t.map (fun q => (q.1, NVal.leaf q.2))) "" "."
            (flattenOne p.1 (NVal.leaf p.2) "" "." store) := rfl
      _ = (store ++ [("." ++ p.1, p.2)]) ++ t.map (fun q => ("." ++ q.1, q.2)) := by
          rw [hset]; exact ih _ habs' hnd'
      _ = store ++ (p :: t).map (fun q => ("." ++ q.1, q.2)) := by simp

/-- Claim C6, counterexample: on the already-flat mapping `{"a": 1}`,
    `flatten` returns `{".a": 1}` — the separator is prepended even at the
    top level (line 47 of the source builds `par + sep + k` without the
    emptiness guard used in the recursive branch), so `flatten` is not
    idempotent on flat mappings. -/
theorem flatten_claim_counterexample :
    flatten [("a", NVal.leaf (1:ℚ))] = [(".a", 1)] ∧
    flatten [("a", NVal.leaf (1:ℚ))] ≠ [("a", (1:ℚ))] := by
  exact ⟨rfl, by decide⟩

/-- Claim C6 (amended): keys of leaves nested below the top level are the
    dot-joined path from the root (as in the claim's example), but a leaf
    at the top level gets the separator prepended to its bare key, so on
    an already-flat mapping `flatten` returns the mapping with every key
    prefixed by "." instead of returning it unchanged. -/
theorem flatten_amended :
    flatten [("overdrive", NVal.node [("gain", NVal.leaf (3:ℚ))])] = [("overdrive.gain", 3)] ∧
    ∀ x : List (String × ℚ), (x.map (fun p => "." ++ p.1)).Nodup →
      flatten (x.map (fun p => (p.1, NVal.leaf p.2))) = x.map (fun p => ("." ++ p.1, p.2)) := by
  constructor
  · rfl
  · intro x hnd
    have h := flattenItems_leaves x [] (by simp) hnd
    simpa [flatten] using h

/-- Witness for `flatten_amended` on a concrete flat mapping. -/
theorem flatten_amended_witness :
    flatten [("a", NVal.leaf (1:ℚ)), ("b", NVal.leaf 2)] = [(".a", 1), (".b", 2)] := by
  have h := flatten_amended.2 [("a", (1:ℚ)), ("b", 2)] (by decide)
  simpa using h

/-! ### Claim C1 — the Feature Extractor -/

theorem mfccWitness_shaped : MfccShaped mfccWitness := by
  intro a
  constructor
  · simp [mfccWitness]
  · intro row hrow
    rw [List.eq_of_mem_replicate hrow]
    simp

/-- Claim C1: `feature_pipeline` requests 26 mfcc coefficients but then
    averages with `np.mean(mfcc, axis = 0)` — over the coefficient axis,
    not the time axis.  For every shape-conforming mfcc implementation the
    returned vector's length equals the number of time frames, which grows
    with the input duration; in particular a 1024-sample waveform yields a
    length-3 vector, not a length-26 one as the claim (and the function's
    own docstring, which promises shape `(n_mfcc,)`) state. -/
theorem feature_pipeline_framecount (mfccFn : List ℚ → List (List ℚ)) (h : MfccShaped mfccFn)
    (arr : List ℚ) :
    (feature_pipeline mfccFn arr).length = numFrames arr.length ∧
    (arr.length = 1024 → (feature_pipeline mfccFn arr).length = 3) := by
  obtain ⟨h26, hrow⟩ := h arr
  have hne : mfccFn arr ≠ [] := by
    intro hh
    rw [hh] at h26
    simp at h26
  have hlen : (feature_pipeline mfccFn arr).length = numFrames arr.length := by
    unfold feature_pipeline npMeanAxis0
    simp only [List.length_map, List.length_range]
    obtain ⟨hd, tl, he⟩ := List.exists_cons_of_ne_nil hne
    rw [he]
    simp only [List.headD_cons]
    exact hrow hd (he ▸ List.mem_cons_self hd tl)
  refine ⟨hlen, fun h1024 => ?_⟩
  rw [hlen, h1024]
  rfl

/-- Witness for `feature_pipeline_framecount`: with the shape-conforming
    mfcc stand-in, a 1024-sample input gives 3 output entries and a
    51200-sample input gives 101 — the output length follows the duration,
    never the coefficient count 26. -/
theorem feature_pipeline_framecount_witness :
    (feature_pipeline mfccWitness (List.replicate 1024 0)).length = 3 ∧
    (feature_pipeline mfccWitness (List.replicate 51200 0)).length = 101 := by
  constructor
  · exact (feature_pipeline_framecount mfccWitness mfccWitness_shaped _).2
      (List.length_replicate 1024 0)
  · rw [(feature_pipeline_framecount mfccWitness mfccWitness_shaped _).1,
      List.length_replicate]
    rfl

/-! ### Claim C2 — the Batch Shape Normalizer -/

theorem foldl_max_fst (t : List (ℕ × ℕ)) :
    ∀ acc : ℕ × ℕ,
      acc.1 ≤ (t.foldl (fun acc sh => if sh.1 > acc.1 then sh else acc) acc).1 ∧
      (∀ sh ∈ t, sh.1 ≤ (t.foldl (fun acc sh => if sh.1 > acc.1 then sh else acc) acc).1) ∧
      (t.foldl (fun acc sh => if sh.1 > acc.1 then sh else acc) acc) ∈ acc :: t := by
  induction t with
  | nil => intro acc; exact ⟨le_refl _, by simp, by simp⟩
  | cons a t ih =>
    intro acc
    rw [List.foldl_cons]
    obtain ⟨hb1, hb2, hb3⟩ := ih (if a.1 > acc.1 then a else acc)
    have hacc : acc.1 ≤ (if a.1 > acc.1 then a else acc).1 := by split <;> omega
    have ha : a.1 ≤ (if a.1 > acc.1 then a else acc).1 := by split <;> omega
    refine ⟨le_trans hacc hb1, ?_, ?_⟩
    · intro sh hsh
      rcases List.mem_cons.mp hsh with rfl | hsh'
      · exact le_trans ha hb1
      · exact hb2 sh hsh'
    · rcases List.mem_cons.mp hb3 with hr | hr
      · rw [hr]
        split
        · exact List.mem_cons_of_mem _ (List.mem_cons_self a t)
        · exact List.mem_cons_self _ _
      · exact List.mem_cons_of_mem _ (List.mem_cons_of_mem a hr)

theorem pyMaxByFst_fst_le (shapes : List (ℕ × ℕ)) (sh : ℕ × ℕ) (h : sh ∈ shapes) :
    sh.1 ≤ (pyMaxByFst shapes).1 := by
  cases shapes with
  | nil => cases h
  | cons x xs =>
    unfold pyMaxByFst
    rcases List.mem_cons.mp h with rfl | hxs
    · exact (foldl_max_fst xs sh).1
    · exact (foldl_max_fst xs x).2.1 sh hxs

theorem pyMaxByFst_mem (shapes : List (ℕ × ℕ)) (h : shapes ≠ []) :
    pyMaxByFst shapes ∈ shapes := by
  cases shapes with
  | nil => exact absurd rfl h
  | cons x xs =>
    unfold pyMaxByFst
    exact (foldl_max_fst xs x).2.2

theorem mapM_option_of_forall {α β : Type} (g : α → Option β) (g' : α → β) :
    ∀ l : List α, (∀ a ∈ l, g a = some (g' a)) → l.mapM g = some (l.map g') := by
  intro l
  induction l with
  | nil => intro _; rfl
  | cons a t ih =>
    intro h
    rw [List.mapM_cons, h a (List.mem_cons_self a t), ih (fun b hb => h b (List.mem_cons_of_mem a hb))]
    rfl

theorem entry2_padGrid (inp : List (List ℚ)) (M : ℕ × ℕ) (hrect : Rect inp)
    (h2 : (shape2 inp).2 ≤ M.2) (j k : ℕ) (hk : k < M.2) :
    entry2 (padGrid inp M) j k =
      if j < inp.length ∧ k < (shape2 inp).2 then entry2 inp j k else 0 := by
  unfold entry2 padGrid
  by_cases hj : j < inp.length
  · rw [List.getD_append _ _ _ _ (by simpa using hj)]
    have hmap : (inp.map (fun row => row ++ List.replicate (M.2 - (shape2 inp).2) 0)).getD j [] =
        (inp.getD j []) ++ List.replicate (M.2 - (shape2 inp).2) 0 := by
      rw [List.getD_eq_getElem _ _ (by simpa using hj), List.getElem_map,
        List.getD_eq_getElem _ _ hj]
    rw [hmap]
    have hrowlen : (inp.getD j []).length = (shape2 inp).2 := by
      rw [List.getD_eq_getElem _ _ hj]
      exact hrect _ (List.getElem_mem _)
    by_cases hky : k < (shape2 inp).2
    · rw [List.getD_append _ _ _ _ (by rw [hrowlen]; exact hky), if_pos ⟨hj, hky⟩]
    · rw [List.getD_append_right _ _ _ _ (by rw [hrowlen]; omega), if_neg (by tauto),
        hrowlen]
      rw [List.getD_eq_getElem _ _ (by rw [List.length_replicate]; omega),
        List.getElem_replicate]
  · rw [List.getD_append_right _ _ _ _ (by simpa using Nat.le_of_not_lt hj),
      if_neg (by tauto), List.length_map]
    have hfst : (shape2 inp).1 = inp.length := rfl
    by_cases hjM : j < M.1
    · have hrow : (List.replicate (M.1 - (shape2 inp).1) (List.replicate M.2 (0:ℚ))).getD
          (j - inp.length) [] = List.replicate M.2 0 := by
        rw [List.getD_eq_getElem _ _ (by rw [List.length_replicate, hfst]; omega)]
        exact List.getElem_replicate _ _
      rw [hrow, List.getD_eq_getElem _ _ (by rw [List.length_replicate]; exact hk)]
      exact List.getElem_replicate _ _
    · have hrow : (List.replicate (M.1 - (shape2 inp).1) (List.replicate M.2 (0:ℚ))).getD
          (j - inp.length) [] = [] :=
        List.getD_eq_default _ _ (by rw [List.length_replicate, hfst]; omega)
      rw [hrow]
      simp

/-- Claim C2, counterexample: with a 1×2 array and a 2×1 array, the
    maximal shape by first dimension is (2, 1); copying the 1×2 array
    into a (2, 1) zero grid fails to broadcast, so `pad` raises instead
    of returning a stacked array with the claimed top-left property. -/
theorem pad_claim_counterexample : pad [[[1, 2]], [[1], [2]]] = Option.none := by rfl

/-- Claim C2 (amended): for every nonempty list of rectangular 2-D
    arrays in which no array is wider than the array of maximal first
    dimension (as holds for the pipeline's (length, 1)-shaped inputs),
    `pad` succeeds, and each output slice carries the original array in
    its top-left corner with every remaining entry exactly zero; if some
    array is wider, the broadcast fails (see the counterexample). -/
theorem pad_amended (l : List (List (List ℚ))) (hne : l ≠ [])
    (hrect : ∀ a ∈ l, Rect a)
    (hcols : ∀ a ∈ l, (shape2 a).2 ≤ (pyMaxByFst (l.map shape2)).2) :
    ∃ out, pad l = some out ∧ out.length = l.length ∧
      ∀ i, i < l.length → ∀ j k, j < (pyMaxByFst (l.map shape2)).1 →
        k < (pyMaxByFst (l.map shape2)).2 →
        entry2 (out.getD i []) j k =
          if j < (l.getD i []).length ∧ k < (shape2 (l.getD i [])).2
          then entry2 (l.getD i []) j k else 0 := by
  have hsome : ∀ a ∈ l, padder a (pyMaxByFst (l.map shape2)) =
      some (padGrid a (pyMaxByFst (l.map shape2))) := by
    intro a ha
    unfold padder
    rw [if_pos ⟨pyMaxByFst_fst_le _ _ (List.mem_map_of_mem shape2 ha), hcols a ha⟩]
  have hpad : pad l = some (l.map (fun a => padGrid a (pyMaxByFst (l.map shape2)))) := by
    cases l with
    | nil => exact absurd rfl hne
    | cons hd tl =>
      unfold pad
      exact mapM_option_of_forall _ _ _ (fun a ha => hsome a ha)
  refine ⟨l.map (fun a => padGrid a (pyMaxByFst (l.map shape2))), hpad, by simp, ?_⟩
  intro i hi j k _ hk
  have hout : (l.map (fun a => padGrid a (pyMaxByFst (l.map shape2)))).getD i [] =
      padGrid (l.getD i []) (pyMaxByFst (l.map shape2)) := by
    rw [List.getD_eq_getElem _ _ (by simpa using hi), List.getElem_map,
      List.getD_eq_getElem _ _ hi]
  rw [hout]
  exact entry2_padGrid _ _
    (hrect _ (by rw [List.getD_eq_getElem _ _ hi]; exact List.getElem_mem _))
    (by rw [List.getD_eq_getElem _ _ hi]; exact hcols _ (List.getElem_mem _)) j k hk

/-- Witness for `pad_amended` on the concrete batch [1×1, 2×1]. -/
theorem pad_amended_witness :
    ∃ out, pad [[[(1:ℚ)]], [[2], [3]]] = some out ∧
      out.length = ([[[(1:ℚ)]], [[2], [3]]] : List (List (List ℚ))).length ∧
      ∀ i, i < ([[[(1:ℚ)]], [[2], [3]]] : List (List (List ℚ))).length →
        ∀ j k, j < (pyMaxByFst ([[[(1:ℚ)]], [[2], [3]]].map shape2)).1 →
          k < (pyMaxByFst ([[[(1:ℚ)]], [[2], [3]]].map shape2)).2 →
          entry2 (out.getD i []) j k =
            if j < ([[[(1:ℚ)]], [[2], [3]]].getD i []).length ∧
               k < (shape2 ([[[(1:ℚ)]], [[2], [3]]].getD i [])).2
            then entry2 ([[[(1:ℚ)]], [[2], [3]]].getD i []) j k else 0 :=
  pad_amended [[[(1:ℚ)]], [[2], [3]]] (by decide) (by unfold Rect; decide) (by decide)

/-! ### Claim C5 — fixed effect-chain ordering -/

theorem dedupSeen_concat (r : String) :
    ∀ (m seen : List String), r ∉ m → r ∉ seen →
      dedupSeen (m ++ [r]) seen = dedupSeen m seen ++ [r] := by
  intro m
  induction m with
  | nil =>
    intro seen _ hrs
    have hc : seen.contains r = false := contains_eq_false_of_not_mem hrs
    simp only [List.nil_append, dedupSeen, hc, Bool.false_eq_true, if_false]
  | cons k t ih =>
    intro seen hrm hrs
    have hrk : r ≠ k := fun he => hrm (he ▸ List.mem_cons_self k t)
    have hrt : r ∉ t := fun ht => hrm (List.mem_cons_of_mem k ht)
    rw [List.cons_append]
    by_cases hc : seen.contains k = true
    · simp only [dedupSeen, if_pos hc]
      exact ih seen hrt hrs
    · simp only [dedupSeen, if_neg hc]
      rw [ih (k :: seen) hrt (by
        intro hm
        rcases List.mem_cons.mp hm with he | hs
        · exact hrk he
        · exact hrs hs), List.cons_append]

theorem dedupSeen_subset : ∀ (l seen : List String), ∀ x ∈ dedupSeen l seen, x ∈ l := by
  intro l
  induction l with
  | nil => intro seen x hx; simp [dedupSeen] at hx
  | cons k t ih =>
    intro seen x hx
    by_cases hc : seen.contains k = true
    · rw [show dedupSeen (k :: t) seen = dedupSeen t seen from by
        simp only [dedupSeen, if_pos hc]] at hx
      exact List.mem_cons_of_mem _ (ih seen x hx)
    · rw [show dedupSeen (k :: t) seen = k :: dedupSeen t (k :: seen) from by
        simp only [dedupSeen, if_neg hc]] at hx
      rcases List.mem_cons.mp hx with rfl | hx2
      · exact List.mem_cons_self _ _
      · exact List.mem_cons_of_mem _ (ih (k :: seen) x hx2)

theorem buildChain_decomp (effects : List (String × Spec)) :
    buildChain effects =
      ("overdrive", dictFind effects "overdrive") ::
        ((dedupSeen ((effects.map Prod.fst).filter
            (fun f => !(f == "reverb" || f == "overdrive"))) ["overdrive"]).map
          (fun k => (k, dictFind effects k)) ++
         [("reverb", dictFind effects "reverb")]) := by
  unfold buildChain buildOrder dedupKeepFirst
  have hrev : "reverb" ∉ (effects.map Prod.fst).filter
      (fun f => !(f == "reverb" || f == "overdrive")) := by
    intro hm
    have hp := List.of_mem_filter hm
    simp at hp
  rw [show dedupSeen ("overdrive" :: ((effects.map Prod.fst).filter
      (fun f => !(f == "reverb" || f == "overdrive")) ++ ["reverb"])) [] =
      "overdrive" :: dedupSeen ((effects.map Prod.fst).filter
        (fun f => !(f == "reverb" || f == "overdrive")) ++ ["reverb"]) ["overdrive"] from by
    simp [dedupSeen]]
  rw [dedupSeen_concat "reverb" _ ["overdrive"] hrev (by decide)]
  simp [List.map_append]

/-- Claim C5: whenever the active-effect set contains both "overdrive"
    and "reverb" (with any other effects in any order), the ordered chain
    built by `augment_data` starts with "overdrive" and ends with
    "reverb", each carrying its configured specification. -/
theorem buildChain_first_last (effects : List (String × Spec))
    (h1 : "overdrive" ∈ effects.map Prod.fst) (h2 : "reverb" ∈ effects.map Prod.fst) :
    ∃ so sr : Spec,
      (buildChain effects).head? = some ("overdrive", some so) ∧
      (buildChain effects).getLast? = some ("reverb", some sr) := by
  obtain ⟨so, hso⟩ := dictFind_isSome h1
  obtain ⟨sr, hsr⟩ := dictFind_isSome h2
  refine ⟨so, sr, ?_, ?_⟩
  · rw [buildChain_decomp]
    simp [hso]
  · rw [buildChain_decomp, ← List.cons_append, List.getLast?_concat, hsr]

/-- Witness for `buildChain_first_last` on a concrete three-effect
    configuration given in scrambled order. -/
theorem buildChain_first_last_witness :
    ∃ so sr : Spec,
      (buildChain [("reverb", []), ("chorus", []), ("overdrive", [])]).head? =
        some ("overdrive", some so) ∧
      (buildChain [("reverb", []), ("chorus", []), ("overdrive", [])]).getLast? =
        some ("reverb", some sr) :=
  buildChain_first_last _ (by decide) (by decide)

/-! ### augment_track machinery -/

theorem rand_ok (l u r : ℚ) (hlt : l < u)
    (hden : (l < 1 ∧ u < 1) ∨ (l.den = 1 ∧ u.den = 1)) :
    ∃ v, rand l u r = Except.ok v := by
  by_cases hb : l < 1 ∧ u < 1
  · exact ⟨pyUniform l u r, by simp [rand, hb]⟩
  · rcases hden with hc | hc
    · exact absurd hc hb
    · exact ⟨l + ((⌊r * (u - l + 1)⌋ : ℤ) : ℚ),
        by simp [rand, hb, pyRandint, hc.1, hc.2, le_of_lt hlt]⟩

theorem processParams_ok (fdef : List (String × PyVal)) (eff : String) (s : ℕ → ℚ) :
    ∀ ps : Spec, SpecOk fdef ps → ∀ i used, ∃ used2 i2,
      processParams fdef eff s ps i used = Except.ok (used2, i2) := by
  intro ps
  induction ps with
  | nil => intro _ i used; exact ⟨used, i, rfl⟩
  | cons pc rest ih =>
    intro hok i used
    have hrest : SpecOk fdef rest := fun q hq => hok q (List.mem_cons_of_mem pc hq)
    obtain ⟨p, cfg⟩ := pc
    by_cases hc : cfg.state = PyVal.str "constant"
    · have h := ih hrest i
        (dictSet used p (if cfg.default = PyVal.bool true then pyGet fdef p else cfg.upper))
      obtain ⟨used2, i2, h2⟩ := h
      exact ⟨used2, i2, by simp [processParams, hc, h2]⟩
    · by_cases hr : cfg.state = PyVal.str "random"
      · obtain ⟨hnl, l, u, hl, hu, hlt, hden⟩ := hok (p, cfg) (List.mem_cons_self _ _) hr
        have hl2 : cfg.lower = PyVal.num l := hl
        have hu2 : cfg.upper = PyVal.num u := hu
        have hnl2 : (pyGet fdef p).isList = false := hnl
        obtain ⟨v, hv⟩ := rand_ok l u (s i) hlt hden
        obtain ⟨used2, i2, h2⟩ := ih hrest (i + 1) (dictSet used p (PyVal.num v))
        refine ⟨used2, i2, ?_⟩
        simp only [processParams, if_neg hc, if_pos hr, hnl2, Bool.false_eq_true, if_false,
          hl2, hu2, if_pos hlt, hv]
        exact h2
      · obtain ⟨used2, i2, h2⟩ := ih hrest i used
        exact ⟨used2, i2, by simp only [processParams, if_neg hc, if_neg hr]; exact h2⟩

theorem processEffect_ok (env : Env) (s : ℕ → ℚ) (eff : String) (spec : Option Spec)
    (h : EffectOk env (eff, spec)) (i : ℕ) :
    ∃ used i2, processEffect env eff spec s i = Except.ok (used, i2) := by
  obtain ⟨fdef, ps, hsig, hps, hok⟩ := h
  have hsig2 : env.sig eff = some fdef := hsig
  have hps2 : spec = some ps := hps
  obtain ⟨used, i2, h2⟩ := processParams_ok fdef eff s ps hok i []
  exact ⟨used, i2, by simp only [processEffect, hsig2, hps2]; exact h2⟩

theorem augmentTrackGo_ok (env : Env) (exercise : String) (sustain : List String) (s : ℕ → ℚ) :
    ∀ c : Chain, (∀ x ∈ c, EffectOk env x) → ∀ i labels,
      ∃ lab2 i2, augmentTrackGo env exercise sustain s c i labels = Except.ok (lab2, i2) := by
  intro c
  induction c with
  | nil => intro _ i labels; exact ⟨labels, i, rfl⟩
  | cons x rest ih =>
    intro hwf i labels
    have hrest := fun y hy => hwf y (List.mem_cons_of_mem x hy)
    obtain ⟨eff, spec⟩ := x
    by_cases hcl : pyLower exercise = "classification" ∧ eff ∉ sustain
    · by_cases hcoin : s i < 1/2
      · obtain ⟨used, i2, hpe⟩ :=
          processEffect_ok env s eff spec (hwf _ (List.mem_cons_self _ _)) (i + 1)
        obtain ⟨lab2, i3, hgo⟩ := ih hrest i2 (dictSet labels eff used)
        refine ⟨lab2, i3, ?_⟩
        simp only [augmentTrackGo, if_pos hcl, if_pos hcoin, hpe]
        exact hgo
      · obtain ⟨lab2, i3, hgo⟩ := ih hrest (i + 1) labels
        refine ⟨lab2, i3, ?_⟩
        simp only [augmentTrackGo, if_pos hcl, if_neg hcoin]
        exact hgo
    · obtain ⟨used, i2, hpe⟩ :=
        processEffect_ok env s eff spec (hwf _ (List.mem_cons_self _ _)) i
      obtain ⟨lab2, i3, hgo⟩ := ih hrest i2 (dictSet labels eff used)
      refine ⟨lab2, i3, ?_⟩
      simp only [augmentTrackGo, if_neg hcl, hpe]
      exact hgo

theorem augment_track_ok (env : Env) (file : String) (n : ℕ) (chain : Chain)
    (exercise : String) (sustain : List String) (s : ℕ → ℚ) (i : ℕ)
    (hwf : WellFormedChain env chain) :
    ∃ lab feat i2, augment_track env file n chain exercise sustain s i =
      Except.ok (lab, feat, i2) ∧ dictFind lab "group" = some (PyVal.num n) := by
  obtain ⟨labels, i2, hgo⟩ := augmentTrackGo_ok env exercise sustain s chain hwf i []
  refine ⟨dictSet (flatten (labels.map (fun kv =>
      (kv.1, NVal.node (kv.2.map (fun pv => (pv.1, NVal.leaf pv.2))))))) "group" (PyVal.num n),
    feature_pipeline env.mfcc (env.wave file labels), i2, ?_, dictFind_dictSet_self _ _ _⟩
  simp only [augment_track, hgo]

theorem augmentTrackGo_append (env : Env) (exercise : String) (sustain : List String)
    (s : ℕ → ℚ) (a b : Chain) :
    ∀ i labels, augmentTrackGo env exercise sustain s (a ++ b) i labels =
      match augmentTrackGo env exercise sustain s a i labels with
      | Except.ok (lab2, i2) => augmentTrackGo env exercise sustain s b i2 lab2
      | Except.error e => Except.error e := by
  induction a with
  | nil => intro i labels; rfl
  | cons x rest ih =>
    intro i labels
    obtain ⟨eff, spec⟩ := x
    rw [List.cons_append]
    by_cases hcl : pyLower exercise = "classification" ∧ eff ∉ sustain
    · by_cases hcoin : s i < 1/2
      · cases hpe : processEffect env eff spec s (i + 1) with
        | ok v =>
          obtain ⟨used, i2⟩ := v
          simp only [augmentTrackGo, if_pos hcl, if_pos hcoin, hpe]
          exact ih i2 (dictSet labels eff used)
        | error e =>
          simp only [augmentTrackGo, if_pos hcl, if_pos hcoin, hpe]
      · simp only [augmentTrackGo, if_pos hcl, if_neg hcoin]
        exact ih (i + 1) labels
    · cases hpe : processEffect env eff spec s i with
      | ok v =>
        obtain ⟨used, i2⟩ := v
        simp only [augmentTrackGo, if_neg hcl, hpe]
        exact ih i2 (dictSet labels eff used)
      | error e =>
        simp only [augmentTrackGo, if_neg hcl, hpe]

theorem processParams_assert (fdef : List (String × PyVal)) (eff : String) (s : ℕ → ℚ)
    (p : String) (cfg : ParamCfg) (l u : ℚ)
    (hstate : cfg.state = PyVal.str "random") (hnl : (pyGet fdef p).isList = false)
    (hl : cfg.lower = PyVal.num l) (hu : cfg.upper = PyVal.num u) (hle : u ≤ l) :
    ∀ pp : Spec, (∀ q ∈ pp, ParamOk fdef q.1 q.2) → ∀ prest i used,
      processParams fdef eff s (pp ++ (p, cfg) :: prest) i used =
        Except.error (assertMsg eff p) := by
  intro pp
  induction pp with
  | nil =>
    intro _ prest i used
    simp [processParams, hstate, hnl, hl, hu, not_lt.mpr hle]
  | cons q pp2 ih =>
    intro hok prest i used
    have hq := hok q (List.mem_cons_self _ _)
    have hok2 := fun y hy => hok y (List.mem_cons_of_mem q hy)
    obtain ⟨pq, cfgq⟩ := q
    rw [List.cons_append]
    by_cases hc : cfgq.state = PyVal.str "constant"
    · simp only [processParams, if_pos hc]
      exact ih hok2 prest _ _
    · by_cases hr : cfgq.state = PyVal.str "random"
      · obtain ⟨hnlq, lq, uq, hlq, huq, hltq, hdenq⟩ := hq hr
        have hlq2 : cfgq.lower = PyVal.num lq := hlq
        have huq2 : cfgq.upper = PyVal.num uq := huq
        have hnlq2 : (pyGet fdef pq).isList = false := hnlq
        obtain ⟨v, hv⟩ := rand_ok lq uq (s i) hltq hdenq
        simp only [processParams, if_neg hc, if_pos hr, hnlq2, Bool.false_eq_true, if_false,
          hlq2, huq2, if_pos hltq, hv]
        exact ih hok2 prest _ _
      · simp only [processParams, if_neg hc, if_neg hr]
        exact ih hok2 prest _ _

theorem augmentTrackGo_assert (env : Env) (exercise : String) (sustain : List String)
    (s : ℕ → ℚ) (eff p : String) (cfg : ParamCfg) (l u : ℚ)
    (fdef : List (String × PyVal)) (pp prest : Spec)
    (hex : pyLower exercise ≠ "classification")
    (hsig : env.sig eff = some fdef)
    (hpp : ∀ q ∈ pp, ParamOk fdef q.1 q.2)
    (hnl : (pyGet fdef p).isList = false)
    (hstate : cfg.state = PyVal.str "random")
    (hl : cfg.lower = PyVal.num l) (hu : cfg.upper = PyVal.num u) (hle : u ≤ l) :
    ∀ (crest : Chain) (i : ℕ) (labels : List (String × List (String × PyVal))),
      augmentTrackGo env exercise sustain s
        ((eff, some (pp ++ (p, cfg) :: prest)) :: crest) i labels =
        Except.error (assertMsg eff p) := by
  intro crest i labels
  have hcl : ¬ (pyLower exercise = "classification" ∧ eff ∉ sustain) := fun h => hex h.1
  simp only [augmentTrackGo, if_neg hcl, processEffect, hsig]
  rw [processParams_assert fdef eff s p cfg l u hstate hnl hl hu hle pp hpp prest i []]

/-! ### Claim C7 — bounds-violation assertion -/

/-- Claim C7: for every effect parameter configured with state "random"
    whose upper bound is not strictly greater than its lower bound, when
    the resolution loop reaches it (regression policy, every earlier
    chain entry and parameter resolvable, library default not a list),
    `augment_track` raises the bounds assertion with the effect.param
    message instead of producing a realized value. -/
theorem augment_track_bad_bounds (env : Env) (file : String) (n : ℕ)
    (cpre crest : Chain) (exercise : String) (sustain : List String) (s : ℕ → ℚ) (i : ℕ)
    (eff p : String) (fdef : List (String × PyVal)) (pp prest : Spec)
    (cfg : ParamCfg) (l u : ℚ)
    (hex : pyLower exercise ≠ "classification")
    (hpre : ∀ x ∈ cpre, EffectOk env x)
    (hsig : env.sig eff = some fdef)
    (hpp : ∀ q ∈ pp, ParamOk fdef q.1 q.2)
    (hnl : (pyGet fdef p).isList = false)
    (hstate : cfg.state = PyVal.str "random")
    (hl : cfg.lower = PyVal.num l) (hu : cfg.upper = PyVal.num u) (hle : u ≤ l) :
    augment_track env file n (cpre ++ (eff, some (pp ++ (p, cfg) :: prest)) :: crest)
      exercise sustain s i = Except.error (assertMsg eff p) := by
  obtain ⟨lab2, i2, hgo⟩ := augmentTrackGo_ok env exercise sustain s cpre hpre i []
  have happ := augmentTrackGo_append env exercise sustain s cpre
    ((eff, some (pp ++ (p, cfg) :: prest)) :: crest) i []
  rw [hgo] at happ
  have happ2 : augmentTrackGo env exercise sustain s
      (cpre ++ (eff, some (pp ++ (p, cfg) :: prest)) :: crest) i [] =
      augmentTrackGo env exercise sustain s
        ((eff, some (pp ++ (p, cfg) :: prest)) :: crest) i2 lab2 := happ
  rw [augmentTrackGo_assert env exercise sustain s eff p cfg l u fdef pp prest hex hsig hpp
    hnl hstate hl hu hle crest i2 lab2] at happ2
  simp only [augment_track, happ2]

/-- Witness for `augment_track_bad_bounds`: overdrive.gain_db configured
    random with lower = 5, upper = 3 makes the run fail with the bounds
    assertion. -/
theorem augment_track_bad_bounds_witness :
    augment_track envW "f.wav" 0
      [("overdrive", some [("gain_db",
        { state := PyVal.str "random", default := PyVal.none,
          lower := PyVal.num 5, upper := PyVal.num 3 })])]
      "regression" ["overdrive", "reverb"] (fun _ => 1/3) 0 =
      Except.error (assertMsg "overdrive" "gain_db") := by
  have h := augment_track_bad_bounds envW "f.wav" 0 [] [] "regression"
    ["overdrive", "reverb"] (fun _ => 1/3) 0 "overdrive" "gain_db"
    [("gain_db", PyVal.num 20), ("colour", PyVal.num 20)] [] []
    { state := PyVal.str "random", default := PyVal.none,
      lower := PyVal.num 5, upper := PyVal.num 3 } 5 3
    (by decide) (fun x hx => absurd hx (List.not_mem_nil x)) rfl
    (fun q hq => absurd hq (List.not_mem_nil q)) rfl rfl rfl rfl (by norm_num)
  exact h

/-! ### Claim C9 — determinism under a fixed random state -/

/-- Claim C9: the embedded `augment_track` is a pure function of the file,
    repetition index, configuration and random-draw stream; two runs with
    the same generator state (same stream, same cursor) produce the same
    result — the same inclusion/exclusion outcome for every effect and
    the same realized parameter values in the labels. -/
theorem augment_track_deterministic (env : Env) (file : String) (n : ℕ) (chain : Chain)
    (exercise : String) (sustain : List String) (s1 s2 : ℕ → ℚ) (i : ℕ)
    (h : s1 = s2) :
    augment_track env file n chain exercise sustain s1 i =
      augment_track env file n chain exercise sustain s2 i := by
  rw [h]

/-- Witness for `augment_track_deterministic` at a concrete
    classification-policy run. -/
theorem augment_track_deterministic_witness :
    augment_track envW "a/b.wav" 0 (buildChain [("overdrive", []), ("reverb", [])])
      "classification" ["overdrive", "reverb"] (fun _ => 1/3) 0 =
      augment_track envW "a/b.wav" 0 (buildChain [("overdrive", []), ("reverb", [])])
        "classification" ["overdrive", "reverb"] (fun _ => 1/3) 0 :=
  augment_track_deterministic envW "a/b.wav" 0 _ "classification" _
    (fun _ => 1/3) (fun _ => 1/3) 0 rfl

/-! ### Claim C10 — missing overdrive / reverb in the active set -/

theorem augmentTrackGo_error_none (env : Env) (exercise : String) (sustain : List String)
    (s : ℕ → ℚ) (m : String)
    (hexm : ¬ (pyLower exercise = "classification" ∧ m ∉ sustain)) :
    ∀ (crest : Chain) (i : ℕ) (labels : List (String × List (String × PyVal))),
      ∃ msg, augmentTrackGo env exercise sustain s ((m, Option.none) :: crest) i labels =
        Except.error msg := by
  intro crest i labels
  cases hsig : env.sig m with
  | none =>
    refine ⟨"AttributeError: Transformer object has no attribute " ++ m, ?_⟩
    simp only [augmentTrackGo, if_neg hexm, processEffect, hsig]
  | some fdef =>
    refine ⟨"AttributeError: NoneType object has no attribute items", ?_⟩
    simp only [augmentTrackGo, if_neg hexm, processEffect, hsig]


/-- Claim C10: when the active set lacks "overdrive" or "reverb", the
    fixed-order construction still inserts the missing name as a chain key
    whose specification is `None` (the unfilled `OrderedDict.fromkeys`
    slot), the subsequent `augment_track` call fails (every present
    specification being processable), and the chain is free of `None`
    slots exactly when both names are in the active set. -/
theorem buildChain_missing_spec (env : Env) (effects : List (String × Spec)) (file : String)
    (n : ℕ) (exercise : String) (sustain : List String) (s : ℕ → ℚ) (i : ℕ)
    (hmiss : "overdrive" ∉ effects.map Prod.fst ∨ "reverb" ∉ effects.map Prod.fst)
    (hwf : ∀ e ps, (e, some ps) ∈ buildChain effects → EffectOk env (e, some ps))
    (hex : pyLower exercise ≠ "classification" ∨
      ("overdrive" ∈ sustain ∧ "reverb" ∈ sustain)) :
    (("overdrive" ∉ effects.map Prod.fst →
        ("overdrive", Option.none) ∈ buildChain effects) ∧
     ("reverb" ∉ effects.map Prod.fst →
        ("reverb", Option.none) ∈ buildChain effects)) ∧
    (∃ msg, augment_track env file n (buildChain effects) exercise sustain s i =
      Except.error msg) ∧
    (chainSpecsPresent (buildChain effects) ↔
      "overdrive" ∈ effects.map Prod.fst ∧ "reverb" ∈ effects.map Prod.fst) := by
  have hdecomp := buildChain_decomp effects
  have hmemOd : "overdrive" ∉ effects.map Prod.fst →
      ("overdrive", Option.none) ∈ buildChain effects := by
    intro hod
    rw [hdecomp, dictFind_eq_none hod]
    exact List.mem_cons_self _ _
  have hmemRev : "reverb" ∉ effects.map Prod.fst →
      ("reverb", Option.none) ∈ buildChain effects := by
    intro hrev
    rw [hdecomp, dictFind_eq_none hrev]
    exact List.mem_cons_of_mem _ (List.mem_append_right _ (List.mem_singleton.mpr rfl))
  have herr : ∃ msg, augment_track env file n (buildChain effects) exercise sustain s i =
      Except.error msg := by
    by_cases hod : "overdrive" ∈ effects.map Prod.fst
    · have hrev : "reverb" ∉ effects.map Prod.fst := by
        rcases hmiss with h | h
        · exact absurd hod h
        · exact h
      obtain ⟨so, hso⟩ := dictFind_isSome hod
      have hpre : ∀ x ∈ (("overdrive", dictFind effects "overdrive") ::
          (dedupSeen ((effects.map Prod.fst).filter
            (fun f => !(f == "reverb" || f == "overdrive"))) ["overdrive"]).map
            (fun k => (k, dictFind effects k))), EffectOk env x := by
        intro x hx
        rcases List.mem_cons.mp hx with rfl | hxm
        · have hm : ("overdrive", some so) ∈ buildChain effects := by
            rw [hdecomp, hso]
            exact List.mem_cons_self _ _
          have h2 := hwf _ _ hm
          rwa [hso]
        · obtain ⟨k, hk, rfl⟩ := List.mem_map.mp hxm
          have hkk : k ∈ effects.map Prod.fst :=
            List.mem_of_mem_filter (dedupSeen_subset _ _ _ hk)
          obtain ⟨sk, hsk⟩ := dictFind_isSome hkk
          have hm : (k, some sk) ∈ buildChain effects := by
            rw [hdecomp]
            exact List.mem_cons_of_mem _ (List.mem_append_left _
              (List.mem_map.mpr ⟨k, hk, by rw [hsk]⟩))
          have h2 := hwf _ _ hm
          rwa [hsk]
      obtain ⟨lab2, i2, hgo⟩ := augmentTrackGo_ok env exercise sustain s _ hpre i []
      have hexr : ¬ (pyLower exercise = "classification" ∧ "reverb" ∉ sustain) := by
        rcases hex with h | h
        · exact fun hc => h hc.1
        · exact fun hc => hc.2 h.2
      obtain ⟨msg, hmsg⟩ :=
        augmentTrackGo_error_none env exercise sustain s "reverb" hexr [] i2 lab2
      refine ⟨msg, ?_⟩
      have happ := augmentTrackGo_append env exercise sustain s
        (("overdrive", dictFind effects "overdrive") ::
          (dedupSeen ((effects.map Prod.fst).filter
            (fun f => !(f == "reverb" || f == "overdrive"))) ["overdrive"]).map
            (fun k => (k, dictFind effects k)))
        [("reverb", dictFind effects "reverb")] i []
      rw [hgo] at happ
      have happ2 : augmentTrackGo env exercise sustain s
          ((("overdrive", dictFind effects "overdrive") ::
            (dedupSeen ((effects.map Prod.fst).filter
              (fun f => !(f == "reverb" || f == "overdrive"))) ["overdrive"]).map
              (fun k => (k, dictFind effects k))) ++
            [("reverb", dictFind effects "reverb")]) i [] =
          augmentTrackGo env exercise sustain s
            [("reverb", dictFind effects "reverb")] i2 lab2 := happ
      rw [dictFind_eq_none hrev, hmsg] at happ2
      have hchain : buildChain effects =
          (("overdrive", dictFind effects "overdrive") ::
            (dedupSeen ((effects.map Prod.fst).filter
              (fun f => !(f == "reverb" || f == "overdrive"))) ["overdrive"]).map
              (fun k => (k, dictFind effects k))) ++
            [("reverb", dictFind effects "reverb")] := by
        rw [hdecomp, List.cons_append]
      rw [hchain]
      simp only [augment_track]
      rw [show augmentTrackGo env exercise sustain s
          ((("overdrive", dictFind effects "overdrive") ::
            (dedupSeen ((effects.map Prod.fst).filter
              (fun f => !(f == "reverb" || f == "overdrive"))) ["overdrive"]).map
              (fun k => (k, dictFind effects k))) ++
            [("reverb", dictFind effects "reverb")]) i [] = Except.error msg from by
        rw [← dictFind_eq_none hrev] at happ2
        exact happ2]
    · have hexo : ¬ (pyLower exercise = "classification" ∧ "overdrive" ∉ sustain) := by
        rcases hex with h | h
        · exact fun hc => h hc.1
        · exact fun hc => hc.2 h.1
      obtain ⟨msg, hmsg⟩ := augmentTrackGo_error_none env exercise sustain s "overdrive" hexo
        ((dedupSeen ((effects.map Prod.fst).filter
            (fun f => !(f == "reverb" || f == "overdrive"))) ["overdrive"]).map
          (fun k => (k, dictFind effects k)) ++
         [("reverb", dictFind effects "reverb")]) i []
      refine ⟨msg, ?_⟩
      have hchain : buildChain effects = ("overdrive", Option.none) ::
          ((dedupSeen ((effects.map Prod.fst).filter
              (fun f => !(f == "reverb" || f == "overdrive"))) ["overdrive"]).map
            (fun k => (k, dictFind effects k)) ++
           [("reverb", dictFind effects "reverb")]) := by
        rw [hdecomp, dictFind_eq_none hod]
      rw [hchain]
      simp only [augment_track, hmsg]
  have hiff : chainSpecsPresent (buildChain effects) ↔
      "overdrive" ∈ effects.map Prod.fst ∧ "reverb" ∈ effects.map Prod.fst := by
    constructor
    · intro hall
      constructor
      · by_contra hod
        exact hall _ (hmemOd hod) rfl
      · by_contra hrev
        exact hall _ (hmemRev hrev) rfl
    · rintro ⟨hod, hrev⟩ x hx
      rw [hdecomp] at hx
      rcases List.mem_cons.mp hx with rfl | hx2
      · obtain ⟨so, hso⟩ := dictFind_isSome hod
        simp [hso]
      · rcases List.mem_append.mp hx2 with hxm | hxr
        · obtain ⟨k, hk, rfl⟩ := List.mem_map.mp hxm
          have hkk : k ∈ effects.map Prod.fst :=
            List.mem_of_mem_filter (dedupSeen_subset _ _ _ hk)
          obtain ⟨sk, hsk⟩ := dictFind_isSome hkk
          simp [hsk]
        · rw [List.mem_singleton.mp hxr]
          obtain ⟨sr, hsr⟩ := dictFind_isSome hrev
          simp [hsr]
  exact ⟨⟨hmemOd, hmemRev⟩, herr, hiff⟩

/-- Witness for `buildChain_missing_spec` with an active set holding only
    "reverb": the chain gains an unfilled "overdrive" slot and the run
    fails. -/
theorem buildChain_missing_spec_witness :
    (("overdrive" ∉ ([("reverb", ([] : Spec))].map Prod.fst) →
        ("overdrive", Option.none) ∈ buildChain [("reverb", [])]) ∧
     ("reverb" ∉ ([("reverb", ([] : Spec))].map Prod.fst) →
        ("reverb", Option.none) ∈ buildChain [("reverb", [])])) ∧
    (∃ msg, augment_track envW "f.wav" 0 (buildChain [("reverb", [])])
      "regression" ["overdrive", "reverb"] (fun _ => 1/3) 0 = Except.error msg) ∧
    (chainSpecsPresent (buildChain [("reverb", [])]) ↔
      "overdrive" ∈ ([("reverb", ([] : Spec))].map Prod.fst) ∧
      "reverb" ∈ ([("reverb", ([] : Spec))].map Prod.fst)) := by
  refine buildChain_missing_spec envW [("reverb", [])] "f.wav" 0 "regression"
    ["overdrive", "reverb"] (fun _ => 1/3) 0 (Or.inl (by decide)) ?_ (Or.inl (by decide))
  intro e ps hm
  have hchain : buildChain [("reverb", ([] : Spec))] =
      [("overdrive", Option.none), ("reverb", some [])] := by decide
  rw [hchain] at hm
  rcases List.mem_cons.mp hm with he | hm2
  · have h2 : some ps = (Option.none : Option Spec) := congrArg Prod.snd he
    exact absurd h2 (Option.some_ne_none ps)
  · rcases List.mem_cons.mp hm2 with he | hm3
    · have he1 : e = "reverb" := congrArg Prod.fst he
      have he2 : some ps = some ([] : Spec) := congrArg Prod.snd he
      have he3 : ps = [] := Option.some.inj he2
      subst he1
      subst he3
      exact ⟨[("reverberance", PyVal.num 50)], [], rfl, rfl,
        fun pc hpc => absurd hpc (List.not_mem_nil pc)⟩
    · exact absurd hm3 (List.not_mem_nil _)

/-! ### Claim C4 — dataset assembly machinery -/

theorem augReps_ok (env : Env) (exercise : String) (sustain : List String) (chain : Chain)
    (file : String) (s : ℕ → ℚ) (hwf : WellFormedChain env chain) :
    ∀ (k rep i : ℕ), ∃ rows i2,
      augReps env exercise sustain chain file s k rep i = Except.ok (rows, i2) ∧
      rows.length = k ∧
      ∀ j, j < k → dictFind (rows.getD j ([], [])).1 "group" = some (PyVal.num (rep + j)) := by
  intro k
  induction k with
  | zero =>
    intro rep i
    exact ⟨[], i, rfl, rfl, fun j hj => absurd hj (Nat.not_lt_zero j)⟩
  | succ k ih =>
    intro rep i
    obtain ⟨lab, feat, i2, htrack, hgroup⟩ :=
      augment_track_ok env file rep chain exercise sustain s i hwf
    obtain ⟨rows, i3, hrec, hrlen, hgroups⟩ := ih (rep + 1) i2
    refine ⟨(lab, feat) :: rows, i3, ?_, by simp [hrlen], ?_⟩
    · simp only [augReps, htrack, hrec]
    · intro j hj
      cases j with
      | zero => simpa using hgroup
      | succ j2 =>
        rw [List.getD_cons_succ,
          show ((rep : ℚ) + ((j2 + 1 : ℕ) : ℚ)) = (((rep + 1 : ℕ)) : ℚ) + ((j2 : ℕ) : ℚ) from by
            push_cast; ring]
        exact hgroups j2 (by omega)

theorem augFiles_ok (env : Env) (exercise : String) (sustain : List String) (chain : Chain)
    (nAug : ℕ) (s : ℕ → ℚ) (hwf : WellFormedChain env chain) :
    ∀ (files : List String) (i : ℕ), ∃ rows i2,
      augFiles env exercise sustain chain nAug s files i = Except.ok (rows, i2) ∧
      rows.length = files.length * nAug ∧
      ∀ fi j, fi < files.length → j < nAug →
        dictFind ((rows.getD (fi * nAug + j) ([], [])).1) "group" = some (PyVal.num j) := by
  intro files
  induction files with
  | nil =>
    intro i
    exact ⟨[], i, rfl, by simp, fun fi j hfi _ => absurd hfi (by simp)⟩
  | cons f fs ih =>
    intro i
    obtain ⟨r1, i2, h1, hlen1, hg1⟩ := augReps_ok env exercise sustain chain f s hwf nAug 0 i
    obtain ⟨r2, i3, h2, hlen2, hg2⟩ := ih i2
    refine ⟨r1 ++ r2, i3, ?_, ?_, ?_⟩
    · simp only [augFiles, h1, h2]
    · rw [List.length_append, hlen1, hlen2, List.length_cons, Nat.succ_mul, Nat.add_comm]
    · intro fi j hfi hj
      cases fi with
      | zero =>
        simp only [Nat.zero_mul, Nat.zero_add]
        rw [List.getD_append _ _ _ _ (by rw [hlen1]; exact hj)]
        simpa using hg1 j hj
      | succ fi2 =>
        have hidx : (fi2 + 1) * nAug + j = r1.length + (fi2 * nAug + j) := by
          rw [hlen1]; ring
        rw [hidx, List.getD_append_right _ _ _ _ (by omega)]
        have h3 : r1.length + (fi2 * nAug + j) - r1.length = fi2 * nAug + j := by omega
        rw [h3]
        exact hg2 fi2 j (by simpa using Nat.lt_of_succ_lt_succ hfi) hj

theorem pad_expandDims (feats : List (List ℚ)) (hne : feats ≠ []) :
    ∃ X, pad (feats.map expandDims) = some X ∧ X.length = feats.length := by
  have hshape : ∀ g : List ℚ, shape2 (expandDims g) =
      (g.length, if g.length = 0 then 0 else 1) := by
    intro g
    cases g with
    | nil => rfl
    | cons a t => simp [shape2, expandDims]
  have hmapne : (feats.map expandDims).map shape2 ≠ [] := by
    simp [hne]
  have hmem := pyMaxByFst_mem _ hmapne
  rw [List.map_map] at hmem
  obtain ⟨g0, hg0, hM⟩ := List.mem_map.mp hmem
  have hM2 : shape2 (expandDims g0) = pyMaxByFst ((feats.map expandDims).map shape2) := by
    rw [List.map_map]
    exact hM
  have hsome : ∀ a ∈ feats.map expandDims,
      padder a (pyMaxByFst ((feats.map expandDims).map shape2)) =
        some (padGrid a (pyMaxByFst ((feats.map expandDims).map shape2))) := by
    intro a ha
    obtain ⟨g, hg, rfl⟩ := List.mem_map.mp ha
    have hmemg : shape2 (expandDims g) ∈ (feats.map expandDims).map shape2 := by
      rw [List.map_map]
      exact List.mem_map.mpr ⟨g, hg, rfl⟩
    have hrows : (shape2 (expandDims g)).1 ≤
        (pyMaxByFst ((feats.map expandDims).map shape2)).1 :=
      pyMaxByFst_fst_le _ _ hmemg
    have hcols : (shape2 (expandDims g)).2 ≤
        (pyMaxByFst ((feats.map expandDims).map shape2)).2 := by
      by_cases hgnil : g.length = 0
      · rw [hshape g]
        simp [hgnil]
      · have hgle : g.length ≤ (pyMaxByFst ((feats.map expandDims).map shape2)).1 := by
          have h0 := hrows
          rw [hshape g] at h0
          exact h0
        have hg0pos : 1 ≤ g0.length := by
          have h2 : g.length ≤ (shape2 (expandDims g0)).1 := by rw [hM2]; exact hgle
          rw [hshape g0] at h2
          omega
        have hMcol : (pyMaxByFst ((feats.map expandDims).map shape2)).2 = 1 := by
          rw [← hM2, hshape g0]
          simp only []
          rw [if_neg (by omega)]
        rw [hshape g, hMcol]
        simp only []
        rw [if_neg hgnil]
    unfold padder
    rw [if_pos ⟨hrows, hcols⟩]
  have hpad : pad (feats.map expandDims) =
      some ((feats.map expandDims).map
        (fun a => padGrid a (pyMaxByFst ((feats.map expandDims).map shape2)))) := by
    cases feats with
    | nil => exact absurd rfl hne
    | cons f0 fr =>
      rw [List.map_cons]
      unfold pad
      rw [← List.map_cons expandDims f0 fr]
      exact mapM_option_of_forall _ _ _ hsome
  exact ⟨_, hpad, by simp⟩

theorem mapM_except_of_forall {α β : Type} (g : α → Except String β) (g2 : α → β) :
    ∀ l : List α, (∀ a ∈ l, g a = Except.ok (g2 a)) → l.mapM g = Except.ok (l.map g2) := by
  intro l
  induction l with
  | nil => intro _; rfl
  | cons a t ih =>
    intro h
    rw [List.mapM_cons, h a (List.mem_cons_self a t),
      ih (fun b hb => h b (List.mem_cons_of_mem a hb))]
    rfl

theorem fileMeta_ok (files : List String) (source : String)
    (hpaths : ∀ f ∈ files, (if source = "sn" then 3 else 2) ≤ (splitSegs f).length) :
    fileMeta files source =
      Except.ok (files.map (fun f => ((modelOf f source).getD "", chordOf f))) := by
  apply mapM_except_of_forall
  intro f hf
  have hk : 1 ≤ (if source = "sn" then 3 else 2) := by split <;> omega
  have hm : modelOf f source = some ((splitSegs f).getD
      ((splitSegs f).length - (if source = "sn" then 3 else 2)) "") := by
    unfold modelOf pyNegIdx
    rw [if_pos ⟨hk, hpaths f hf⟩]
  rw [hm]
  rfl

theorem length_flatten_replicate {β γ : Type} (n : ℕ) (gf : β → γ) :
    ∀ xs : List β, ((xs.map (fun x => List.replicate n (gf x))).flatten).length =
      xs.length * n := by
  intro xs
  induction xs with
  | nil => simp
  | cons x t ih =>
    rw [List.map_cons, List.flatten_cons, List.length_append, List.length_replicate, ih,
      List.length_cons, Nat.succ_mul, Nat.add_comm]

theorem flatten_replicate_getD {β : Type} (n : ℕ) (gf : β → String) (d : β) :
    ∀ (xs : List β) (fi j : ℕ), fi < xs.length → j < n →
      ((xs.map (fun x => List.replicate n (gf x))).flatten).getD (fi * n + j) "" =
        gf (xs.getD fi d) := by
  intro xs
  induction xs with
  | nil => intro fi j hfi _; simp at hfi
  | cons x xs ih =>
    intro fi j hfi hj
    rw [List.map_cons, List.flatten_cons]
    cases fi with
    | zero =>
      simp only [Nat.zero_mul, Nat.zero_add]
      rw [List.getD_append _ _ _ _ (by rw [List.length_replicate]; exact hj),
        List.getD_eq_getElem _ _ (by rw [List.length_replicate]; exact hj),
        List.getElem_replicate]
      rfl
    | succ fi2 =>
      have hidx : (fi2 + 1) * n + j = (List.replicate n (gf x)).length + (fi2 * n + j) := by
        rw [List.length_replicate]; ring
      rw [hidx, List.getD_append_right _ _ _ _ (by omega)]
      have h2 : (List.replicate n (gf x)).length + (fi2 * n + j) -
          (List.replicate n (gf x)).length = fi2 * n + j := by omega
      rw [h2, List.getD_cons_succ]
      exact ih fi2 j (by simpa using Nat.lt_of_succ_lt_succ hfi) hj

theorem zipWith_getD {α β γ : Type} (f : α → β → γ) :
    ∀ (a : List α) (b : List β) (r : ℕ) (da : α) (db : β) (dc : γ),
      r < a.length → r < b.length →
      (List.zipWith f a b).getD r dc = f (a.getD r da) (b.getD r db) := by
  intro a
  induction a with
  | nil => intro b r da db dc hr _; simp at hr
  | cons x xs ih =>
    intro b r da db dc hr hrb
    cases b with
    | nil => simp at hrb
    | cons y ys =>
      cases r with
      | zero => rfl
      | succ r2 =>
        simp only [List.zipWith_cons_cons, List.getD_cons_succ]
        exact ih ys r2 da db dc (by simpa using Nat.lt_of_succ_lt_succ hr)
          (by simpa using Nat.lt_of_succ_lt_succ hrb)

/-- Claim C4: a run of the assembly core over F source files with
    repetition count n ≥ 1 (processable chain, paths deep enough for the
    metadata split) returns a feature tensor with F·n slices and a label
    table with F·n rows in matching order; row fi·n + j carries
    `group` = j (so each file's block counts 0..n-1 in order), and the
    `model` / `chords` columns parsed from file fi's path are repeated
    across its n consecutive rows. -/
theorem augment_data_rows (env : Env) (s : ℕ → ℚ) (files : List String) (nAug : ℕ)
    (effects : List (String × Spec)) (exercise : String) (sustain : List String)
    (source : String)
    (hf : files ≠ []) (hn : 1 ≤ nAug)
    (hwf : WellFormedChain env (buildChain effects))
    (hpaths : ∀ f ∈ files, (if source = "sn" then 3 else 2) ≤ (splitSegs f).length) :
    ∃ X Y, augment_data env s files nAug effects exercise sustain source =
        Except.ok (X, Y) ∧
      X.length = files.length * nAug ∧ Y.length = files.length * nAug ∧
      ∀ fi j, fi < files.length → j < nAug →
        dictFind (Y.getD (fi * nAug + j) []) "group" = some (PyVal.num j) ∧
        dictFind (Y.getD (fi * nAug + j) []) "model" =
          some (PyVal.str ((modelOf (files.getD fi "") source).getD "")) ∧
        dictFind (Y.getD (fi * nAug + j) []) "chords" =
          some (PyVal.str (chordOf (files.getD fi ""))) := by
  obtain ⟨rows, iend, hrows, hlen, hgroups⟩ :=
    augFiles_ok env exercise sustain (buildChain effects) nAug s hwf files 0
  have hFpos : 0 < files.length := List.length_pos.mpr hf
  have hprod : 0 < files.length * nAug := Nat.mul_pos hFpos (by omega)
  have hrowsne : rows ≠ [] := by
    intro hnil
    rw [hnil] at hlen
    have h0 : files.length * nAug = 0 := hlen.symm
    exact absurd h0 (Nat.pos_iff_ne_zero.mp hprod)
  have hempty : rows.isEmpty = false := by
    cases rows with
    | nil => exact absurd rfl hrowsne
    | cons a t => rfl
  obtain ⟨X, hpadX, hXlen⟩ := pad_expandDims (rows.map (fun r => r.2)) (by simpa using hrowsne)
  have hmeta := fileMeta_ok files source hpaths
  have hmodlen : (((files.map (fun f => ((modelOf f source).getD "", chordOf f))).map
      (fun m => List.replicate nAug m.1)).flatten).length = files.length * nAug := by
    rw [length_flatten_replicate, List.length_map]
  have hchrlen : (((files.map (fun f => ((modelOf f source).getD "", chordOf f))).map
      (fun m => List.replicate nAug m.2)).flatten).length = files.length * nAug := by
    rw [length_flatten_replicate, List.length_map]
  have hY0len : (rows.map (fun r => r.1)).length = files.length * nAug := by
    rw [List.length_map, hlen]
  have hY1len : ((rows.map (fun r => r.1)).zipWith
      (fun row m => dictSet row "model" (PyVal.str m))
      (((files.map (fun f => ((modelOf f source).getD "", chordOf f))).map
        (fun m => List.replicate nAug m.1)).flatten)).length = files.length * nAug := by
    rw [List.length_zipWith, hY0len, hmodlen, Nat.min_self]
  refine ⟨X,
    ((rows.map (fun r => r.1)).zipWith (fun row m => dictSet row "model" (PyVal.str m))
        (((files.map (fun f => ((modelOf f source).getD "", chordOf f))).map
          (fun m => List.replicate nAug m.1)).flatten)).zipWith
      (fun row c => dictSet row "chords" (PyVal.str c))
      (((files.map (fun f => ((modelOf f source).getD "", chordOf f))).map
        (fun m => List.replicate nAug m.2)).flatten),
    ?_, ?_, ?_, ?_⟩
  · simp only [augment_data, hrows, hempty, Bool.false_eq_true, if_false, hpadX, hmeta]
  · rw [hXlen, List.length_map, hlen]
  · rw [List.length_zipWith, hY1len, hchrlen, Nat.min_self]
  · intro fi j hfi hj
    have hr : fi * nAug + j < files.length * nAug := by
      calc fi * nAug + j < fi * nAug + nAug := by omega
        _ = (fi + 1) * nAug := by ring
        _ ≤ files.length * nAug := Nat.mul_le_mul_right nAug (by omega)
    rw [zipWith_getD (fun row c => dictSet row "chords" (PyVal.str c)) _ _ (fi * nAug + j)
      [] "" [] (by rw [hY1len]; exact hr) (by rw [hchrlen]; exact hr)]
    rw [zipWith_getD (fun row m => dictSet row "model" (PyVal.str m)) _ _ (fi * nAug + j)
      [] "" [] (by rw [hY0len]; exact hr) (by rw [hmodlen]; exact hr)]
    have hbase : (rows.map (fun r => r.1)).getD (fi * nAug + j) [] =
        (rows.getD (fi * nAug + j) ([], [])).1 := by
      rw [List.getD_eq_getElem _ _ (by rw [List.length_map, hlen]; exact hr),
        List.getElem_map, List.getD_eq_getElem _ _ (by rw [hlen]; exact hr)]
    have hmeta6 : (files.map (fun f => ((modelOf f source).getD "", chordOf f))).getD fi
        ("", "") = ((modelOf (files.getD fi "") source).getD "",
          chordOf (files.getD fi "")) := by
      rw [List.getD_eq_getElem _ _ (by rw [List.length_map]; exact hfi),
        List.getElem_map, List.getD_eq_getElem _ _ hfi]
    have hmodv : (((files.map (fun f => ((modelOf f source).getD "", chordOf f))).map
        (fun m => List.replicate nAug m.1)).flatten).getD (fi * nAug + j) "" =
        (modelOf (files.getD fi "") source).getD "" := by
      rw [flatten_replicate_getD nAug Prod.fst ("", "")
        (files.map (fun f => ((modelOf f source).getD "", chordOf f))) fi j
        (by rw [List.length_map]; exact hfi) hj, hmeta6]
    have hchv : (((files.map (fun f => ((modelOf f source).getD "", chordOf f))).map
        (fun m => List.replicate nAug m.2)).flatten).getD (fi * nAug + j) "" =
        chordOf (files.getD fi "") := by
      rw [flatten_replicate_getD nAug Prod.snd ("", "")
        (files.map (fun f => ((modelOf f source).getD "", chordOf f))) fi j
        (by rw [List.length_map]; exact hfi) hj, hmeta6]
    rw [hbase, hmodv, hchv]
    refine ⟨?_, ?_, ?_⟩
    · rw [dictFind_dictSet_ne _ _ _ _ (by decide), dictFind_dictSet_ne _ _ _ _ (by decide)]
      exact hgroups fi j hfi hj
    · rw [dictFind_dictSet_ne _ _ _ _ (by decide), dictFind_dictSet_self]
    · rw [dictFind_dictSet_self]

/-- Witness for `augment_data_rows`: 2 source files under one model
    directory, n_augment = 2, regression policy, overdrive
    constant/default and reverb with library defaults. -/
theorem augment_data_rows_witness :
    ∃ X Y, augment_data envW (fun _ => 1/3) ["m/A.wav", "m/B.wav"] 2
        [("overdrive", [("gain_db", cfgConstDefault)]), ("reverb", [])]
        "regression" ["overdrive", "reverb"] "power" = Except.ok (X, Y) ∧
      X.length = (["m/A.wav", "m/B.wav"] : List String).length * 2 ∧
      Y.length = (["m/A.wav", "m/B.wav"] : List String).length * 2 ∧
      ∀ fi j, fi < (["m/A.wav", "m/B.wav"] : List String).length → j < 2 →
        dictFind (Y.getD (fi * 2 + j) []) "group" = some (PyVal.num j) ∧
        dictFind (Y.getD (fi * 2 + j) []) "model" =
          some (PyVal.str ((modelOf ((["m/A.wav", "m/B.wav"] : List String).getD fi "")
            "power").getD "")) ∧
        dictFind (Y.getD (fi * 2 + j) []) "chords" =
          some (PyVal.str (chordOf ((["m/A.wav", "m/B.wav"] : List String).getD fi ""))) := by
  refine augment_data_rows envW (fun _ => 1/3) _ 2 _ "regression" ["overdrive", "reverb"]
    "power" (by decide) (by decide) ?_ (by decide)
  intro x hx
  have hchain : buildChain
      [("overdrive", [("gain_db", cfgConstDefault)]), ("reverb", [])] =
      [("overdrive", some [("gain_db", cfgConstDefault)]), ("reverb", some [])] := by
    decide
  rw [hchain] at hx
  rcases List.mem_cons.mp hx with rfl | hx2
  · refine ⟨[("gain_db", PyVal.num 20), ("colour", PyVal.num 20)],
      [("gain_db", cfgConstDefault)], rfl, rfl, ?_⟩
    intro pc hpc
    rw [List.mem_singleton.mp hpc]
    intro hst
    exact absurd hst (by decide)
  · rcases List.mem_cons.mp hx2 with rfl | hx3
    · exact ⟨[("reverberance", PyVal.num 50)], [], rfl, rfl,
        fun pc hpc => absurd hpc (List.not_mem_nil pc)⟩
    · exact absurd hx3 (List.not_mem_nil x)
